import Mathlib

/-!
# img_syncer: `server/imgmanager/imgmanager.go`

A shallow embedding of the image manager (`ImgManager`) and of the parts of the
Go standard library it calls (`path/filepath`, `time`), followed by theorems
about the upload pipeline, thumbnail generation, retrieval, deletion, the worker
loop and date-range enumeration.

Go strings are modelled by `String`; the byte loops of the standard library are
transcribed over `List Char` (every byte they inspect is ASCII: `/`, `.`, `:`,
space, digits).
-/

namespace ImgSyncer

/-! ## Go standard library: `path/filepath` (Unix) -/

namespace filepath

/-- Go `os.IsPathSeparator` on Unix: the only separator is the slash. -/
def isPathSeparator (c : Char) : Bool := c == '/'

/-- The loop of Go `filepath.Ext`, scanning from the last byte towards the
first: `rev` is what is still to scan (reversed), `acc` what was already
passed. It stops at the first separator (no extension) or the first dot. -/
def extScan : List Char → List Char → List Char
  | [], _ => []
  | c :: rev, acc =>
    if isPathSeparator c then []
    else if c == '.' then c :: acc
    else extScan rev (c :: acc)

/-- Go `filepath.Ext`: the suffix beginning at the final dot of the final
element of `path`, empty when there is none. -/
def Ext (path : String) : String := ⟨extScan path.data.reverse []⟩

/-- True when the read position is at the end of a path element: `r == n` or
`path[r]` is a separator. -/
def atElemEnd : List Char → Bool
  | [] => true
  | c :: _ => isPathSeparator c

/-- The backtracking of Go `filepath.Clean` on a `..` element, after the first
`out.w--`: `for out.w > dotdot && !IsPathSeparator(out.index(out.w)) { out.w-- }`.
The argument and the result are the write index `w`. -/
def backtrack (out : List Char) (dotdot : Nat) : Nat → Nat
  | 0 => 0
  | w + 1 =>
    if dotdot < w + 1 && !isPathSeparator (out.getD (w + 1) '/') then backtrack out dotdot w
    else w + 1

/-- The main loop of Go `filepath.Clean`: `rest` is `path[r:]`, `out` the bytes
written so far (`out.w = out.length`), `dotdot` the index where `..` must stop.
Every iteration consumes at least one byte, so `fuel = len(path)` suffices. -/
def cleanLoop (rooted : Bool) : Nat → List Char → List Char → Nat → List Char
  | 0, _, out, _ => out
  | _ + 1, [], out, _ => out
  | fuel + 1, c :: rest, out, dotdot =>
    if isPathSeparator c then
      -- empty path element
      cleanLoop rooted fuel rest out dotdot
    else if c == '.' && atElemEnd rest then
      -- . element
      cleanLoop rooted fuel rest out dotdot
    else if c == '.' && rest.head? == some '.' && atElemEnd rest.tail then
      -- .. element: remove to last separator
      if dotdot < out.length then
        cleanLoop rooted fuel rest.tail (out.take (backtrack out dotdot (out.length - 1))) dotdot
      else if !rooted then
        let out1 := (if 0 < out.length then out ++ ['/'] else out) ++ ['.', '.']
        cleanLoop rooted fuel rest.tail out1 out1.length
      else
        cleanLoop rooted fuel rest.tail out dotdot
    else
      -- real path element: add slash if needed, then copy the element
      let out1 :=
        if (rooted && out.length != 1) || (!rooted && out.length != 0) then out ++ ['/'] else out
      let elem := (c :: rest).takeWhile (fun x => !isPathSeparator x)
      let rest1 := (c :: rest).dropWhile (fun x => !isPathSeparator x)
      cleanLoop rooted fuel rest1 (out1 ++ elem) dotdot

/-- Go `filepath.Clean` on Unix (no volume name, `FromSlash` is the identity). -/
def Clean (path : String) : String :=
  if path.data.isEmpty then "."
  else
    let rooted := isPathSeparator (path.data.headD '.')
    let out :=
      if rooted then cleanLoop true path.data.length path.data.tail ['/'] 1
      else cleanLoop false path.data.length path.data [] 0
    -- Turn empty string into "."
    if out.isEmpty then "." else ⟨out⟩

/-- Go `filepath.Join` on Unix: the elements from the first non-empty one on
are joined with the separator and the result is cleaned; all empty gives "". -/
def Join : List String → String
  | [] => ""
  | e :: es => if e ≠ "" then Clean ("/".intercalate (e :: es)) else Join es

/-- The elements of a path, between its separators (Go `strings.Split(p, "/")`). -/
def splitElems : List Char → List (List Char)
  | [] => [[]]
  | c :: cs =>
    if isPathSeparator c then [] :: splitElems cs
    else (c :: (splitElems cs).headD []) :: (splitElems cs).tail

/-- A real path element: not empty, without a separator, and not `.` or `..`. -/
def realElem (e : List Char) : Bool :=
  !e.isEmpty && e.all (fun c => !isPathSeparator c) && e != ['.'] && e != ['.', '.']

/-- A clean relative path: real elements separated by single slashes. -/
def IsCleanRel (p : String) : Bool := (splitElems p.data).all realElem

/-- No element of the path is `..`. -/
def HasNoDotDot (p : String) : Bool := (splitElems p.data).all (fun e => e != ['.', '.'])

/-- Elements joined by single separators. -/
def joinElems : List (List Char) → List Char
  | [] => []
  | [e] => e
  | e :: e1 :: es => e ++ '/' :: joinElems (e1 :: es)

/-- Elements written one after the other to an output that may already hold
some, a separator going before each element unless the output is empty. -/
def addElems (out : List Char) : List (List Char) → List Char
  | [] => out
  | e :: es => addElems (out ++ (if out.length != 0 then ['/'] else []) ++ e) es

/-- What follows the separator at the head of `r`, split into elements. -/
def afterSep : List Char → List (List Char)
  | [] => []
  | _ :: r => splitElems r

end filepath

/-! ## Go standard library: `time` -/

namespace time

/-- A Go `time.Time`, held as the civil date and clock it presents in its own
location (what `Format` reads). `time.Parse` without a zone in the layout yields
UTC. The location itself, which `AddDate` needs, is added by `ZonedTime`. -/
structure Time where
  year : Int
  month : Nat
  day : Nat
  hour : Nat
  min : Nat
  sec : Nat
  nsec : Nat
deriving DecidableEq, Repr

/-- The zero `time.Time{}`: January 1, year 1, 00:00:00.000000000 UTC. -/
def Time.zero : Time := ⟨1, 1, 1, 0, 0, 0, 0⟩

/-- Go `Time.IsZero` (for a time in UTC): the instant is January 1, year 1,
00:00:00 UTC. -/
def Time.IsZero (t : Time) : Bool := decide (t = Time.zero)

/-- Go `time.isLeap`. -/
def isLeap (year : Int) : Bool := year % 4 == 0 && (year % 100 != 0 || year % 400 == 0)

/-- Go `time.daysIn`. -/
def daysIn (month : Nat) (year : Int) : Nat :=
  if month == 2 then (if isLeap year then 29 else 28)
  else if month == 4 || month == 6 || month == 9 || month == 11 then 30
  else 31

/-- Go `time.isDigit(s, i)`. -/
def isDigit (s : List Char) (i : Nat) : Bool :=
  match s.get? i with
  | none => false
  | some c => '0' ≤ c && c ≤ '9'

/-- Value of an ASCII digit. -/
def digitVal (c : Char) : Nat := c.toNat - '0'.toNat

/-- Go `time.getnum`: one or two leading digits (exactly two when `fixed`). -/
def getnum (s : List Char) (fixed : Bool) : Option (Nat × List Char) :=
  if !isDigit s 0 then none
  else if !isDigit s 1 then
    if fixed then none else some (digitVal (s.headD '0'), s.drop 1)
  else some (digitVal (s.headD '0') * 10 + digitVal (s.getD 1 '0'), s.drop 2)

/-- Go `time.cutspace`. -/
def cutspace (s : List Char) : List Char := s.dropWhile (fun c => c == ' ')

/-- Go `time.skip`: remove `pre` from the front of `value`; a space in `pre`
matches zero or more spaces when the value is empty or starts with a space.
Every iteration shortens `pre`, so `fuel = len(pre)` suffices. -/
def skip : Nat → List Char → List Char → Option (List Char)
  | _, value, [] => some value
  | 0, _, _ :: _ => none
  | fuel + 1, value, p :: pre =>
    if p == ' ' then
      if value.head?.any (fun c => c != ' ') then none
      else skip fuel (cutspace value) (cutspace (p :: pre))
    else
      match value with
      | [] => none
      | v :: value1 => if v != p then none else skip fuel value1 pre

/-- Decimal value of a list of digits; `none` if some byte is not a digit
(Go `time.atoi` on an unsigned field). -/
def atoiDigits (s : List Char) : Option Nat :=
  if s.isEmpty then none
  else s.foldl (fun acc c => acc.bind (fun n =>
    if '0' ≤ c && c ≤ '9' then some (n * 10 + digitVal c) else none)) (some 0)

/-- The fractional second Go accepts after the seconds field when the layout
has none: `value[0]` is a period or comma and `value[1]` a digit. Returns the
nanoseconds (Go `parseNanoseconds`, at most nine digits kept) and the rest. -/
def fracSecond (value : List Char) : Nat × List Char :=
  if 2 ≤ value.length && (value.head? == some '.' || value.head? == some ',') && isDigit value 1 then
    let digits := value.tail.takeWhile (fun c => '0' ≤ c && c ≤ '9')
    let kept := digits.take 9
    ((atoiDigits kept).getD 0 * 10 ^ (9 - kept.length), value.tail.drop digits.length)
  else (0, value)

/-- Go `time.Parse("2006:01:02 15:04:05", value)`: the chunks of the layout are
`2006` (four digits), `:01`, `:02` (two digits each), a space, `15` (one or two
digits), `:04`, `:05` (two digits each); anything left over is an error, and so
is an out-of-range field or a day the month does not have. -/
def Parse (value : String) : Option Time := do
  let v := value.data
  -- stdLongYear
  if v.length < 4 || !isDigit v 0 then none
  let year ← atoiDigits (v.take 4)
  let v := v.drop 4
  -- ":" stdZeroMonth
  let v ← skip 1 v [':']
  let (month, v) ← getnum v true
  if month ≤ 0 || 12 < month then none
  -- ":" stdZeroDay
  let v ← skip 1 v [':']
  let (day, v) ← getnum v true
  -- " " stdHour
  let v ← skip 1 v [' ']
  let (hour, v) ← getnum v false
  if 24 ≤ hour then none
  -- ":" stdZeroMinute
  let v ← skip 1 v [':']
  let (min, v) ← getnum v true
  if 60 ≤ min then none
  -- ":" stdZeroSecond
  let v ← skip 1 v [':']
  let (sec, v) ← getnum v true
  if 60 ≤ sec then none
  let (nsec, v) := fracSecond v
  -- end of layout: extra text is an error
  if !v.isEmpty then none
  -- validate the day of the month
  if day < 1 || daysIn month year < day then none
  pure ⟨year, month, day, hour, min, sec, nsec⟩

/-- Go `time.appendInt` for a non-negative value: decimal digits, zero-padded
on the left to `width`. -/
def padNat (n width : Nat) : String :=
  let s := toString n
  ⟨List.replicate (width - s.length) '0'⟩ ++ s

/-- Go `time.appendInt`: a minus sign for a negative value, then the digits of
the absolute value zero-padded to `width`. -/
def appendInt (x : Int) (width : Nat) : String :=
  if x < 0 then "-" ++ padNat x.natAbs width else padNat x.natAbs width

/-- Go `t.Format("2006/01/02")`. -/
def Time.Format (t : Time) : String :=
  appendInt t.year 4 ++ "/" ++ padNat t.month 2 ++ "/" ++ padNat t.day 2

/-- Go `time.daysBefore[month-1]`: the days of a non-leap year before the first
of `month` (January is 1). -/
def daysBefore (month : Nat) : Int :=
  match month with
  | 1 => 0
  | 2 => 31
  | 3 => 59
  | 4 => 90
  | 5 => 120
  | 6 => 151
  | 7 => 181
  | 8 => 212
  | 9 => 243
  | 10 => 273
  | 11 => 304
  | 12 => 334
  | _ => 365

/-- The days from January 1 of year 1 to January 1 of `year` (Go
`daysSinceEpoch`, counted from year 1 instead of the absolute epoch). -/
def daysSinceYearOne (year : Int) : Int :=
  365 * (year - 1) + (year - 1) / 4 - (year - 1) / 100 + (year - 1) / 400

/-- The seconds from 1970-01-01 00:00:00 UTC that Go `time.Date` computes from
its fields before it looks at the location: days before the year, days before
the month (one more after February of a leap year), `day - 1` (a day past the
end of the month simply counts on), then the clock. -/
def unixOfFields (year : Int) (month : Nat) (day : Int) (hour min sec : Nat) : Int :=
  (daysSinceYearOne year + daysBefore month + (if isLeap year && 3 ≤ month then 1 else 0) +
      (day - 1) - 719162) * 86400 + hour * 3600 + min * 60 + sec

/-- Go `*time.Location`, as far as `lookup` uses it: the offset (seconds east
of UTC) in force before the first transition, and the transitions in ascending
order, each with the Unix second it happens at and the offset from then on. A
fixed zone, UTC included, has no transition. -/
structure Location where
  offset0 : Int
  tx : List (Int × Int)
deriving DecidableEq, Repr

/-- Go `time.alpha`, the start of time for `lookup`. -/
def alpha : Int := -(2 ^ 63)

/-- Go `time.omega`, the end of time for `lookup`. -/
def omega : Int := 2 ^ 63 - 1

/-- The search of Go `Location.lookup` through the transitions: `offset` and
`start` belong to the zone in force before the transitions still to look at. The
result is the offset in force at `sec` and the span `[start, end)` it holds for. -/
def lookupFrom (sec offset start : Int) : List (Int × Int) → Int × Int × Int
  | [] => (offset, start, omega)
  | (when_, offset1) :: rest =>
    if sec < when_ then (offset, start, when_) else lookupFrom sec offset1 when_ rest

/-- Go `Location.lookup(sec)`: offset, start and end of the zone in force at the
Unix second `sec`. -/
def Location.lookup (l : Location) (sec : Int) : Int × Int × Int :=
  lookupFrom sec l.offset0 alpha l.tx

/-- The civil date after the civil date of `t`, clock unchanged: what Go
`time.Date` normalises `day + 1` to (October 32 is November 1). -/
def Time.nextDay (t : Time) : Time :=
  if t.day + 1 ≤ daysIn t.month t.year then { t with day := t.day + 1 }
  else if t.month < 12 then { t with month := t.month + 1, day := 1 }
  else { t with year := t.year + 1, month := 1, day := 1 }

/-- The civil date before the civil date of `t`, clock unchanged. -/
def Time.prevDay (t : Time) : Time :=
  if 1 < t.day then { t with day := t.day - 1 }
  else if 1 < t.month then { t with month := t.month - 1, day := daysIn (t.month - 1) t.year }
  else { t with year := t.year - 1, month := 12, day := 31 }

/-- The civil time `delta` seconds after (before, when negative) the civil time
`t`: the clock moves within the day and the date by the days carried; a zero
shift leaves `t` as it is. -/
def Time.addSeconds (t : Time) (delta : Int) : Time :=
  if delta = 0 then t
  else
    let s : Int := t.hour * 3600 + t.min * 60 + t.sec + delta
    let days := s / 86400
    let r := (s % 86400).toNat
    let d : Time :=
      if 0 ≤ days then Time.nextDay^[days.toNat] t else Time.prevDay^[(-days).toNat] t
    { d with hour := r / 3600, min := r % 3600 / 60, sec := r % 60 }

/-- A Go `time.Time` with its location: the civil date and clock it presents
there (what `Date`, `Clock` and `Format` read) and the location. -/
structure ZonedTime where
  civil : Time
  loc : Location
deriving DecidableEq, Repr

/-- Go `t.Format("2006/01/02")` on a time in any location. -/
def ZonedTime.Format (t : ZonedTime) : String := t.civil.Format

/-- Go `t.AddDate(0, 0, 1)`, that is `Date(year, month, day+1, hour, min, sec,
nsec, loc)` on the date and clock `t` presents. `Date` computes the Unix second
the fields would be in UTC, looks up the location's offset there, checks it
against the span it holds for and looks it up again when it does not fit, and
subtracts it. The result presents, in the location, the next civil day at the
same clock moved by the difference between the offset in force at the result and
the offset subtracted. -/
def ZonedTime.AddDate (t : ZonedTime) : ZonedTime :=
  let unix := unixOfFields t.civil.year t.civil.month (t.civil.day + 1) t.civil.hour
    t.civil.min t.civil.sec
  let z := t.loc.lookup unix
  let offset :=
    if z.1 != 0 then
      let utc := unix - z.1
      if utc < z.2.1 || utc ≥ z.2.2 then (t.loc.lookup utc).1 else z.1
    else 0
  let result := unix - offset
  ⟨t.civil.nextDay.addSeconds ((t.loc.lookup result).1 - offset), t.loc⟩

/-- Go `time.UTC`. -/
def UTC : Location := ⟨0, []⟩

/-- America/Sao_Paulo around November 2018: UTC-3 until daylight saving time
began at 2018-11-04 03:00:00 UTC (local midnight), UTC-2 from then until it
ended at 2019-02-17 02:00:00 UTC. -/
def saoPaulo2018 : Location :=
  ⟨-10800, [(unixOfFields 2018 11 4 3 0 0, -7200), (unixOfFields 2019 2 17 2 0 0, -10800)]⟩

/-! ### The calendar as the specification words it -/

/-- The leap years of the Gregorian calendar: divisible by 4 and not by 100,
or divisible by 400. -/
def specLeapYear (year : Int) : Bool :=
  decide ((year % 4 = 0 ∧ year % 100 ≠ 0) ∨ year % 400 = 0)

/-- The number of days of a month of the Gregorian calendar. -/
def specDaysInMonth (month : Nat) (year : Int) : Nat :=
  match month with
  | 2 => if specLeapYear year then 29 else 28
  | 4 => 30
  | 6 => 30
  | 9 => 30
  | 11 => 30
  | _ => 31

/-- The next calendar day, clock unchanged. -/
def specNextDay (t : Time) : Time :=
  if t.day < specDaysInMonth t.month t.year then { t with day := t.day + 1 }
  else if t.month < 12 then { t with month := t.month + 1, day := 1 }
  else { t with year := t.year + 1, month := 1, day := 1 }

/-- The `n` consecutive calendar days from `t` on: `t`, `t` + 1 day, ... -/
def specDaysFrom : Nat → Time → List Time
  | 0, _ => []
  | n + 1, t => t :: specDaysFrom n (specNextDay t)

/-- A byte that is neither the separator nor a dot. -/
def plainChar (c : Char) : Prop := c ≠ '/' ∧ c ≠ '.'

end time

/-! ## `package imgmanager` -/

namespace imgmanager

open filepath time

/-- Go `[]byte`. -/
abbrev Bytes := List UInt8

/-- Go `error` values (non-nil). -/
abbrev Err := String

def defaultWorkerNum : Int := 5
def defaultThumbnailMaxWidth : Int := 500
def defaultThumbnailMaxHeight : Int := 500
def defaultThumbnailDir : String := ".thumbnail"

/-- Go `type Option struct` (the configuration of the manager). -/
structure ManagerOption where
  WorkerNum : Int
  ThumbnailMaxWidth : Int
  ThumbnailMaxHeight : Int
  ThumbbailQuality : Int
deriving DecidableEq, Repr

/-- Go `type actType int` with its three constants. -/
inductive actType where
  | actGenerateThumbnail
  | actUpload
  | actDelete
deriving DecidableEq, Repr

/-- Go `type action struct`. A nil `content` is the empty byte slice. -/
structure action where
  t : actType
  path : String
  content : Bytes
deriving DecidableEq, Repr

/-- The four timestamp fields of the metadata record returned by
`GetImageMetadata` (declared elsewhere in the package). -/
structure ImageMetadata where
  Datetime : String
  DateTimeOriginal : String
  CreateDate : String
  ModifyDate : String
deriving DecidableEq, Repr

/-- An `io.Reader` / `io.ReadCloser`, held as what `io.ReadAll` gets from it. -/
structure Stream where
  readAll : Except Err Bytes

/-- Go `fs.FileInfo`, as far as `RangeByDate` uses it. -/
structure FileInfo where
  Name : String
  Size : Int
deriving DecidableEq, Repr

/-- Go `type Image struct` (declared elsewhere in the package): the handle
returned to callers. `Content` is `none` for a nil stream. -/
structure Image where
  Path : String
  Content : Option Stream
  Size : Int

/-- The `StorageDrive` interface (declared elsewhere in the package), over an
explicit drive state. `Range` gives the entries of a directory in the order the
drive visits them; the enumeration itself is `driRange` below. -/
structure StorageDrive (σ : Type) where
  Upload : String → Bytes → Int → σ → Option Err × σ
  Download : String → σ → Except Err (Stream × Int) × σ
  Delete : String → σ → Option Err × σ
  IsExist : String → σ → Except Err Bool × σ
  Range : String → σ → List FileInfo

/-- The external image libraries: `image/jpeg`, `image/png`, `nfnt/resize`.
`Thumbnail` is `resize.Thumbnail` on a non-nil image. -/
structure Codec (Img : Type) where
  jpegDecode : Bytes → Except Err Img
  pngDecode : Bytes → Except Err Img
  Thumbnail : Nat → Nat → Img → Img
  jpegEncode : Img → Int → Except Err Bytes

/-- What the manager is linked against: the injected drive, the image
libraries, and the declarations of the package that live in other files
(`JpegSuffix`, `PngSuffix`, `GetImageMetadata`). -/
structure Env (σ Img : Type) where
  drive : StorageDrive σ
  codec : Codec Img
  JpegSuffix : String
  PngSuffix : String
  GetImageMetadata : Bytes → Except Err ImageMetadata

/-- A call made to the drive or to an image library (ghost record). -/
inductive Call where
  | Upload (path : String) (content : Bytes) (size : Int)
  | Download (path : String)
  | Delete (path : String)
  | IsExist (path : String)
  | jpegDecode (content : Bytes)
  | pngDecode (content : Bytes)
  | Thumbnail (maxWidth maxHeight : Nat)
  | jpegEncode (quality : Int)
deriving DecidableEq, Repr

/-- A line written to `im.logger`. -/
inductive LogEntry where
  | imageMetadata (m : ImageMetadata)
  | errGettingMetadata (e : Err)
  | errUploading (e : Err)
  | errGeneratingThumbnail (e : Err)
  | errDeleting (e : Err)
deriving DecidableEq, Repr

/-- Go `type ImgManager struct`, with the drive held as its state, the number
of worker goroutines started, and the ghost record of external calls. -/
structure ImgManager (σ : Type) where
  dri : σ
  actQueue : List action
  logger : List LogEntry
  opt : ManagerOption
  workers : Nat
  calls : List Call

/-- How a call ends: it returns nil, returns an error, or panics. -/
inductive Outcome where
  | ok
  | error (e : Err)
  | panicked
deriving DecidableEq, Repr

/-- Go conversion `uint(x)` of an `int` on a 64-bit platform. -/
def uint (x : Int) : Nat := (x % 2 ^ 64).toNat

variable {σ Img : Type}

/-- Go `NewImgManager`: non-positive worker count and thumbnail bounds are
replaced by the defaults; the loop starts `opt.WorkerNum` workers. `dri0` is
the state of the initial `UnimplementedDrive`. -/
def NewImgManager (dri0 : σ) (opt : ManagerOption) : ImgManager σ :=
  let opt := if opt.WorkerNum ≤ 0 then { opt with WorkerNum := defaultWorkerNum } else opt
  let opt :=
    if opt.ThumbnailMaxWidth ≤ 0 then { opt with ThumbnailMaxWidth := defaultThumbnailMaxWidth }
    else opt
  let opt :=
    if opt.ThumbnailMaxHeight ≤ 0 then { opt with ThumbnailMaxHeight := defaultThumbnailMaxHeight }
    else opt
  { dri := dri0, actQueue := [], logger := [], opt := opt,
    workers := opt.WorkerNum.toNat, calls := [] }

/-- Go `SetDrive`. -/
def SetDrive (im : ImgManager σ) (dri : σ) : ImgManager σ := { im with dri := dri }

/-- Go `im.dri.Upload(path, reader over content, size)`, recorded. -/
def driUpload (env : Env σ Img) (im : ImgManager σ) (path : String) (content : Bytes)
    (size : Int) : Option Err × ImgManager σ :=
  let r := env.drive.Upload path content size im.dri
  (r.1, { im with dri := r.2, calls := im.calls ++ [Call.Upload path content size] })

/-- Go `im.dri.Download(path)`, recorded. -/
def driDownload (env : Env σ Img) (im : ImgManager σ) (path : String) :
    Except Err (Stream × Int) × ImgManager σ :=
  let r := env.drive.Download path im.dri
  (r.1, { im with dri := r.2, calls := im.calls ++ [Call.Download path] })

/-- Go `im.dri.Delete(path)`, recorded. -/
def driDelete (env : Env σ Img) (im : ImgManager σ) (path : String) :
    Option Err × ImgManager σ :=
  let r := env.drive.Delete path im.dri
  (r.1, { im with dri := r.2, calls := im.calls ++ [Call.Delete path] })

/-- Go `im.dri.IsExist(path)`, recorded. -/
def driIsExist (env : Env σ Img) (im : ImgManager σ) (path : String) :
    Except Err Bool × ImgManager σ :=
  let r := env.drive.IsExist path im.dri
  (r.1, { im with dri := r.2, calls := im.calls ++ [Call.IsExist path] })

/-- The `switch filepath.Ext(path)` of `GenerateThumbnail`: the decoded image
handle (`none` is the nil `image.Image` left by a switch without a matching
case) or the decode error, and the decode call made, if any. -/
def decodeByExt (env : Env σ Img) (path : String) (content : Bytes) :
    Except Err (Option Img) × List Call :=
  if Ext path = env.JpegSuffix then
    ((env.codec.jpegDecode content).map some, [Call.jpegDecode content])
  else if Ext path = env.PngSuffix then
    ((env.codec.pngDecode content).map some, [Call.pngDecode content])
  else (Except.ok none, [])

/-- Go `GenerateThumbnail`. `resize.Thumbnail` starts with `img.Bounds()`, which
on the nil interface value is a nil dereference: the call panics. -/
def GenerateThumbnail (env : Env σ Img) (im : ImgManager σ) (path : String)
    (content : Bytes) : Outcome × ImgManager σ :=
  let dec := decodeByExt env path content
  let im := { im with calls := im.calls ++ dec.2 }
  match dec.1 with
  | Except.error e => (Outcome.error e, im)
  | Except.ok none => (Outcome.panicked, im)
  | Except.ok (some imghdl) =>
    let maxWidth := uint im.opt.ThumbnailMaxWidth
    let maxHeight := uint im.opt.ThumbnailMaxHeight
    let newImghdl := env.codec.Thumbnail maxWidth maxHeight imghdl
    let im := { im with calls := im.calls ++ [Call.Thumbnail maxWidth maxHeight, Call.jpegEncode 75] }
    match env.codec.jpegEncode newImghdl 75 with
    | Except.error e => (Outcome.error e, im)
    | Except.ok buf =>
      let thumbPath := Join [defaultThumbnailDir, path]
      match driUpload env im thumbPath buf buf.length with
      | (some e, im) => (Outcome.error e, im)
      | (none, im) => (Outcome.ok, im)

/-- Go `UploadImgAsync`: `actQueue.Put` appends to the queue. -/
def UploadImgAsync (im : ImgManager σ) (path : String) (content : Bytes) : ImgManager σ :=
  { im with actQueue := im.actQueue ++ [⟨actType.actUpload, path, content⟩] }

/-- Go `GenerateThumbnailAsync`. -/
def GenerateThumbnailAsync (im : ImgManager σ) (path : String) (content : Bytes) :
    ImgManager σ :=
  { im with actQueue := im.actQueue ++ [⟨actType.actGenerateThumbnail, path, content⟩] }

/-- The `if / else if` chain of `UploadImg` choosing the metadata field to
parse (`var date string` starts empty). -/
def selectDate (m : ImageMetadata) : String :=
  if m.Datetime ≠ "" then m.Datetime
  else if m.DateTimeOriginal ≠ "" then m.DateTimeOriginal
  else if m.CreateDate ≠ "" then m.CreateDate
  else if m.ModifyDate ≠ "" then m.ModifyDate
  else ""

/-- The selection as the specification words it: the first non-empty of the
four timestamp fields in the order primary, original, created, modified, and the
empty string when all four are empty. -/
def specFirstNonEmpty (m : ImageMetadata) : String :=
  ([m.Datetime, m.DateTimeOriginal, m.CreateDate, m.ModifyDate].find? (fun s => s ≠ "")).getD ""

/-- `imgTime` after the metadata block of `UploadImg`: the parsed selected
field when extraction and parsing succeed, the zero time otherwise. -/
def timeFromMetadata (meta : Except Err ImageMetadata) : Time :=
  match meta with
  | Except.ok m =>
    match Parse (selectDate m) with
    | some t => t
    | none => Time.zero
  | Except.error _ => Time.zero

/-- `imgTime` as `UploadImg` resolves it: metadata, then the `date` argument
if `imgTime` is still zero, then `time.Now()` if it is still zero. -/
def resolveTime (meta : Except Err ImageMetadata) (date : String) (now : Time) : Time :=
  let imgTime := timeFromMetadata meta
  let imgTime :=
    if imgTime.IsZero then
      match Parse date with
      | some t => t
      | none => imgTime
    else imgTime
  if imgTime.IsZero then now else imgTime

/-- Go `UploadImg`; `now` is what `time.Now()` returns during the call. -/
def UploadImg (env : Env σ Img) (now : Time) (im : ImgManager σ) (content : Stream)
    (name date : String) : Option Err × ImgManager σ :=
  match content.readAll with
  | Except.error e => (some e, im)
  | Except.ok data =>
    let meta := env.GetImageMetadata data
    let im :=
      match meta with
      | Except.ok m => { im with logger := im.logger ++ [LogEntry.imageMetadata m] }
      | Except.error e => { im with logger := im.logger ++ [LogEntry.errGettingMetadata e] }
    let imgTime := resolveTime meta date now
    let path := Join [imgTime.Format, name]
    (none, UploadImgAsync im path data)

/-- Go `GetImg`. -/
def GetImg (env : Env σ Img) (im : ImgManager σ) (path : String) :
    (Image × Option Err) × ImgManager σ :=
  match driDownload env im path with
  | (Except.error e, im) => ((⟨"", none, 0⟩, some e), im)
  | (Except.ok (content, size), im) => ((⟨path, some content, size⟩, none), im)

/-- The end of `GetThumbnail`, reached when the thumbnail exists or was just
generated: download the thumbnail path and return that handle. -/
def downloadThumbnail (env : Env σ Img) (im : ImgManager σ) (thumbnailPath : String) :
    (Image × Outcome) × ImgManager σ :=
  match driDownload env im thumbnailPath with
  | (Except.error e, im) => ((⟨"", none, 0⟩, Outcome.error e), im)
  | (Except.ok (content, size), im) => ((⟨thumbnailPath, some content, size⟩, Outcome.ok), im)

/-- Go `GetThumbnail`. On an error the partly filled handle is returned with
the error (Go assigns the results of a failed `Download` to the handle; they are
kept here as the nil stream and size 0). -/
def GetThumbnail (env : Env σ Img) (im : ImgManager σ) (path : String) :
    (Image × Outcome) × ImgManager σ :=
  let thumbnailPath := Join [defaultThumbnailDir, path]
  match driIsExist env im thumbnailPath with
  | (Except.error e, im) => ((⟨"", none, 0⟩, Outcome.error e), im)
  | (Except.ok exist, im) =>
    if !exist then
      match driDownload env im path with
      | (Except.error e, im) => ((⟨"", none, 0⟩, Outcome.error e), im)
      | (Except.ok (content, size), im) =>
        match content.readAll with
        | Except.error e => ((⟨"", some content, size⟩, Outcome.error e), im)
        | Except.ok data =>
          match GenerateThumbnail env im path data with
          | (Outcome.ok, im) => downloadThumbnail env im thumbnailPath
          | (r, im) => ((⟨"", some content, size⟩, r), im)
    else downloadThumbnail env im thumbnailPath

/-- Go `DeleteSingleImg`. -/
def DeleteSingleImg (env : Env σ Img) (im : ImgManager σ) (path : String) :
    Option Err × ImgManager σ :=
  if path ≠ "" then driDelete env im path else (none, im)

/-- Go `DeleteSingleImgAsync`. -/
def DeleteSingleImgAsync (im : ImgManager σ) (path : String) : ImgManager σ :=
  if path ≠ "" then { im with actQueue := im.actQueue ++ [⟨actType.actDelete, path, []⟩] }
  else im

/-- Go `DeleteImg`: the `for _, path := range paths` loop. -/
def DeleteImg (im : ImgManager σ) : List String → ImgManager σ
  | [] => im
  | path :: paths =>
    if path ≠ "" then DeleteImg (DeleteSingleImgAsync im path) paths
    else DeleteImg im paths

/-- The `switch act.t` of `runWorker`: the one operation of the action's kind;
an error it returns is logged. -/
def dispatch (env : Env σ Img) (im : ImgManager σ) (act : action) : Outcome × ImgManager σ :=
  match act.t with
  | actType.actUpload =>
    match driUpload env im act.path act.content act.content.length with
    | (some e, im) => (Outcome.error e, { im with logger := im.logger ++ [LogEntry.errUploading e] })
    | (none, im) => (Outcome.ok, im)
  | actType.actGenerateThumbnail =>
    match GenerateThumbnail env im act.path act.content with
    | (Outcome.error e, im) =>
      (Outcome.error e, { im with logger := im.logger ++ [LogEntry.errGeneratingThumbnail e] })
    | r => r
  | actType.actDelete =>
    match driDelete env im act.path with
    | (some e, im) => (Outcome.error e, { im with logger := im.logger ++ [LogEntry.errDeleting e] })
    | (none, im) => (Outcome.ok, im)

/-- Where a worker is after some iterations of its loop. -/
inductive WorkerState (σ : Type) where
  | running (im : ImgManager σ)
  | blocked (im : ImgManager σ)
  | crashed (im : ImgManager σ)

/-- Go `runWorker`, a single worker run for at most `fuel` iterations of its
`for` loop: `actQueue.Get(1)` takes the head of the queue (and blocks while the
queue is empty; it returns an error only on a disposed queue, and the manager
never disposes its queue), the action is dispatched, and the loop goes round
unless the operation panicked. -/
def runWorker (env : Env σ Img) : Nat → ImgManager σ → WorkerState σ
  | 0, im => WorkerState.running im
  | fuel + 1, im =>
    match im.actQueue with
    | [] => WorkerState.blocked im
    | act :: queue =>
      match dispatch env { im with actQueue := queue } act with
      | (Outcome.panicked, im) => WorkerState.crashed im
      | (_, im) => runWorker env fuel im

/-- The variables `RangeByDate` shares with the visitor it passes to the drive:
`continueRange`, the state of the caller's callback, and (ghost) the callback
invocations made so far. -/
structure RangeState (κ : Type) where
  continueRange : Bool
  cb : κ
  invoked : List (String × Int)
deriving DecidableEq

/-- The visitor closure of `RangeByDate`. -/
def rangeVisitor {κ : Type} (f : String → Int → κ → Bool × κ) (dir : String) (info : FileInfo)
    (st : RangeState κ) : Bool × RangeState κ :=
  let path := Join [dir, info.Name]
  let r := f path info.Size st.cb
  (r.1, ⟨r.1, r.2, st.invoked ++ [(path, info.Size)]⟩)

/-- A drive enumeration that stops as soon as its visitor returns false. -/
def driRange {S : Type} (visit : FileInfo → S → Bool × S) : List FileInfo → S → S
  | [], s => s
  | info :: rest, s =>
    match visit info s with
    | (true, s) => driRange visit rest s
    | (false, s) => s

/-- How a run of `RangeByDate` stands after some days: it has returned, or
its loop is still running. -/
inductive RangeRun (κ : Type) where
  | returned (st : RangeState κ)
  | running (st : RangeState κ)
deriving DecidableEq

/-- The `for continueRange` loop of `RangeByDate`, for at most `fuel` days. -/
def rangeLoop {κ : Type} (env : Env σ Img) (dri : σ) (f : String → Int → κ → Bool × κ) :
    Nat → ZonedTime → RangeState κ → RangeRun κ
  | fuel, t, st =>
    if !st.continueRange then RangeRun.returned st
    else
      match fuel with
      | 0 => RangeRun.running st
      | fuel + 1 =>
        let dir := Join [t.Format]
        rangeLoop env dri f fuel t.AddDate (driRange (rangeVisitor f dir) (env.drive.Range dir dri) st)

/-- Go `RangeByDate`, for at most `fuel` days; `cb` is the initial state of the
callback `f`. -/
def RangeByDate {κ : Type} (env : Env σ Img) (im : ImgManager σ) (fuel : Nat)
    (start : ZonedTime)
    (f : String → Int → κ → Bool × κ) (cb : κ) : RangeRun κ :=
  rangeLoop env im.dri f fuel start ⟨true, cb, []⟩

/-- The callback arguments `RangeByDate` builds for the objects of day `t`:
`dir` is `filepath.Join` of the formatted date, each path `filepath.Join` of
`dir` and the object's name. -/
def visitArgs (env : Env σ Img) (dri : σ) (t : ZonedTime) : List (String × Int) :=
  (env.drive.Range (Join [t.Format]) dri).map
    (fun info => (Join [Join [t.Format], info.Name], info.Size))

/-- The times at which `RangeByDate` starts its first `n` days: `t`,
`t.AddDate(0, 0, 1)`, and so on. -/
def daysVisited : Nat → ZonedTime → List ZonedTime
  | 0, _ => []
  | n + 1, t => t :: daysVisited n t.AddDate

/-! ### The enumeration as the specification words it -/

/-- The callback run over a list of arguments in order and cut off right after
the first invocation that returns false: the invocations made, whether all of
them returned true, and the final state of the callback. -/
def specInvokeUntilFalse {κ : Type} (f : String → Int → κ → Bool × κ) :
    List (String × Int) → κ → List (String × Int) × Bool × κ
  | [], k => ([], true, k)
  | a :: rest, k =>
    match f a.1 a.2 k with
    | (true, k1) =>
      let r := specInvokeUntilFalse f rest k1
      (a :: r.1, r.2.1, r.2.2)
    | (false, k1) => ([a], false, k1)

/-- The callback arguments for the objects of day `t` as specified: the path
`YYYY/MM/DD/<object name>` and the object's size, in the drive's order. -/
def specDayArgs (env : Env σ Img) (dri : σ) (t : Time) : List (String × Int) :=
  (env.drive.Range t.Format dri).map (fun info => (t.Format ++ "/" ++ info.Name, info.Size))

/-! ### Concrete drive and libraries, to run the manager on explicit inputs -/

/-- An in-memory drive: the stored objects by path, newest first. -/
def memDrive : StorageDrive (List (String × Bytes)) where
  Upload := fun path content _ d => (none, (path, content) :: d.filter (fun o => o.1 ≠ path))
  Download := fun path d =>
    match d.lookup path with
    | some content => (Except.ok (⟨Except.ok content⟩, content.length), d)
    | none => (Except.error "not found", d)
  Delete := fun path d => (none, d.filter (fun o => o.1 ≠ path))
  IsExist := fun path d => (Except.ok (d.any (fun o => o.1 == path)), d)
  Range := fun dir d =>
    (d.filter (fun o => (dir.data ++ ['/']).isPrefixOf o.1.data)).map
      (fun o => ⟨⟨o.1.data.drop (dir.data.length + 1)⟩, o.2.length⟩)

/-- Image libraries that accept every input: an image is its bytes. -/
def idCodec : Codec Bytes where
  jpegDecode := fun content => Except.ok content
  pngDecode := fun content => Except.ok content
  Thumbnail := fun _ _ img => img
  jpegEncode := fun img _ => Except.ok img

/-- An environment over the in-memory drive whose metadata extractor gives the
fixed answer `meta`. -/
def memEnv (meta : Except Err ImageMetadata) : Env (List (String × Bytes)) Bytes where
  drive := memDrive
  codec := idCodec
  JpegSuffix := ".jpg"
  PngSuffix := ".png"
  GetImageMetadata := fun _ => meta

end imgmanager

/-! ## Lemmas on `filepath.Clean` and `filepath.Join` -/

namespace filepath

theorem splitElems_ne_nil (p : List Char) : splitElems p ≠ [] := by
  cases p with
  | nil => simp [splitElems]
  | cons c cs => by_cases h : isPathSeparator c <;> simp [splitElems, h]

theorem splitElems_cons_of_not_sep (c : Char) (cs : List Char) (h : isPathSeparator c = false) :
    splitElems (c :: cs) = (c :: (splitElems cs).headD []) :: (splitElems cs).tail := by
  simp [splitElems, h]

theorem headD_cons_tail (p : List Char) :
    (splitElems p).headD [] :: (splitElems p).tail = splitElems p := by
  have := splitElems_ne_nil p
  cases h : splitElems p with
  | nil => exact absurd h this
  | cons e es => rfl

theorem joinElems_cons_head (c : Char) (e : List Char) (es : List (List Char)) :
    joinElems ((c :: e) :: es) = c :: joinElems (e :: es) := by
  cases es <;> simp [joinElems]

theorem joinElems_splitElems (p : List Char) : joinElems (splitElems p) = p := by
  induction p with
  | nil => simp [splitElems, joinElems]
  | cons c cs ih =>
    by_cases h : isPathSeparator c
    · have hc : c = '/' := by simpa [isPathSeparator] using h
      have hne := splitElems_ne_nil cs
      cases hs : splitElems cs with
      | nil => exact absurd hs hne
      | cons e es =>
        rw [hs] at ih
        simp [splitElems, h, hs, joinElems, ih, hc]
    · have h' : isPathSeparator c = false := by simpa using h
      rw [splitElems_cons_of_not_sep c cs h', joinElems_cons_head, headD_cons_tail, ih]

theorem splitElems_eq_takeWhile (p : List Char) :
    splitElems p =
      p.takeWhile (fun x => !isPathSeparator x) ::
        afterSep (p.dropWhile (fun x => !isPathSeparator x)) := by
  induction p with
  | nil => simp [splitElems, afterSep]
  | cons c cs ih =>
    by_cases h : isPathSeparator c
    · simp [splitElems, h, afterSep]
    · have h' : isPathSeparator c = false := by simpa using h
      rw [splitElems_cons_of_not_sep c cs h', ih]
      simp [h']

theorem splitElems_of_atElemEnd (r : List Char) (h : atElemEnd r = true) :
    splitElems r = [] :: afterSep r := by
  cases r with
  | nil => simp [splitElems, afterSep]
  | cons c cs =>
    have hc : isPathSeparator c = true := by simpa [atElemEnd] using h
    simp [splitElems, hc, afterSep]

theorem atElemEnd_dropWhile (p : List Char) :
    atElemEnd (p.dropWhile (fun x => !isPathSeparator x)) = true := by
  induction p with
  | nil => simp [atElemEnd]
  | cons c cs ih =>
    by_cases h : isPathSeparator c
    · simp [List.dropWhile, h, atElemEnd]
    · simp [List.dropWhile, h, ih]

theorem takeWhile_of_atElemEnd (r : List Char) (h : atElemEnd r = true) :
    r.takeWhile (fun x => !isPathSeparator x) = [] ∧
      r.dropWhile (fun x => !isPathSeparator x) = r := by
  cases r with
  | nil => simp
  | cons c cs =>
    have hc : isPathSeparator c = true := by simpa [atElemEnd] using h
    simp [List.takeWhile, List.dropWhile, hc]

theorem atElemEnd_of_takeWhile_nil (r : List Char)
    (h : r.takeWhile (fun x => !isPathSeparator x) = []) : atElemEnd r = true := by
  cases r with
  | nil => rfl
  | cons c cs =>
    by_cases hc : isPathSeparator c
    · simpa [atElemEnd] using hc
    · simp [List.takeWhile, hc] at h

theorem takeWhile_all_not_sep (p : List Char) :
    (p.takeWhile (fun x => !isPathSeparator x)).all (fun c => !isPathSeparator c) = true := by
  induction p with
  | nil => simp
  | cons c cs ih =>
    by_cases hc : isPathSeparator c
    · simp [List.takeWhile, hc]
    · simp [List.takeWhile, hc]

theorem length_dropWhile_le (p : List Char) (f : Char → Bool) :
    (p.dropWhile f).length ≤ p.length := by
  induction p with
  | nil => simp
  | cons c cs ih =>
    simp only [List.dropWhile]
    split
    · simp; omega
    · simp

theorem realElem_iff (e : List Char) (h : e.all (fun c => !isPathSeparator c) = true) :
    realElem e = true ↔ e ≠ [] ∧ e ≠ ['.'] ∧ e ≠ ['.', '.'] := by
  simp [realElem, h, and_assoc]

theorem cleanLoop_sep (fuel : Nat) (c : Char) (rest out : List Char) (dd : Nat)
    (h : isPathSeparator c = true) :
    cleanLoop false (fuel + 1) (c :: rest) out dd = cleanLoop false fuel rest out dd := by
  simp [cleanLoop, h]

theorem cleanLoop_noDotDot (fuel : Nat) :
    ∀ (p out : List Char) (dd : Nat), p.length ≤ fuel →
      (∀ e ∈ splitElems p, e ≠ ['.', '.']) →
      cleanLoop false fuel p out dd = addElems out ((splitElems p).filter realElem) := by
  induction fuel with
  | zero =>
    intro p out dd hlen _
    have : p = [] := by simpa using hlen
    subst this
    simp [cleanLoop, splitElems, realElem, addElems]
  | succ fuel ih =>
    intro p out dd hlen hdd
    cases p with
    | nil => simp [cleanLoop, splitElems, realElem, addElems]
    | cons c rest =>
      have hlen' : rest.length ≤ fuel := by simpa using hlen
      by_cases hsep : isPathSeparator c
      · -- empty element
        rw [cleanLoop_sep fuel c rest out dd hsep]
        have hs : splitElems (c :: rest) = [] :: splitElems rest := by simp [splitElems, hsep]
        rw [hs] at hdd ⊢
        rw [ih rest out dd hlen' (fun e he => hdd e (List.mem_cons_of_mem _ he))]
        simp [realElem]
      · have hsep' : isPathSeparator c = false := by simpa using hsep
        have hsplit := splitElems_eq_takeWhile (c :: rest)
        have htw : (c :: rest).takeWhile (fun x => !isPathSeparator x) =
            c :: rest.takeWhile (fun x => !isPathSeparator x) := by
          simp [List.takeWhile, hsep']
        have hdw : (c :: rest).dropWhile (fun x => !isPathSeparator x) =
            rest.dropWhile (fun x => !isPathSeparator x) := by
          simp [List.dropWhile, hsep']
        rw [htw, hdw] at hsplit
        by_cases hdot : c = '.' ∧ atElemEnd rest = true
        · -- "." element
          obtain ⟨hc, hend⟩ := hdot
          have hstep : cleanLoop false (fuel + 1) (c :: rest) out dd =
              cleanLoop false fuel rest out dd := by
            simp [cleanLoop, hsep', hc, hend]
          have htk := takeWhile_of_atElemEnd rest hend
          rw [htk.1, htk.2] at hsplit
          have hrest := splitElems_of_atElemEnd rest hend
          rw [hstep, ih rest out dd hlen' ?_, hsplit, hrest]
          · simp [realElem, hc]
          · intro e he
            rw [hrest] at he
            rcases List.mem_cons.1 he with h1 | h1
            · simp [h1]
            · exact hdd e (by rw [hsplit]; exact List.mem_cons_of_mem _ h1)
        · -- a real element
          set e := c :: rest.takeWhile (fun x => !isPathSeparator x) with he
          set r := rest.dropWhile (fun x => !isPathSeparator x) with hr
          have hne2 : e ≠ ['.', '.'] := hdd e (by rw [hsplit]; exact List.mem_cons_self _ _)
          have hall : e.all (fun c => !isPathSeparator c) = true := by
            have := takeWhile_all_not_sep (c :: rest)
            rwa [htw] at this
          have hne1 : e ≠ ['.'] := by
            intro h1
            apply hdot
            simp only [he, List.cons.injEq] at h1
            exact ⟨h1.1, atElemEnd_of_takeWhile_nil rest h1.2⟩
          have hreal : realElem e = true := (realElem_iff e hall).2 ⟨by simp [he], hne1, hne2⟩
          have hb2 : (c == '.' && atElemEnd rest) = false := by
            by_cases hc : c = '.'
            · have : atElemEnd rest ≠ true := fun h => hdot ⟨hc, h⟩
              simp [hc, this]
            · simp [hc]
          have hb3 : (c == '.' && rest.head? == some '.' && atElemEnd rest.tail) = false := by
            by_cases hc : c = '.'
            · cases rest with
              | nil => simp
              | cons c2 rest2 =>
                by_cases hc2 : c2 = '.'
                · by_cases hend2 : atElemEnd rest2 = true
                  · exfalso
                    apply hne2
                    have := takeWhile_of_atElemEnd rest2 hend2
                    rw [he, hc2, List.takeWhile_cons_of_pos (by simp [isPathSeparator]), this.1, hc]
                  · simp [hend2]
                · simp [hc2]
            · simp [hc]
          have hstep : cleanLoop false (fuel + 1) (c :: rest) out dd =
              cleanLoop false fuel r (out ++ (if out.length != 0 then ['/'] else []) ++ e) dd := by
            rw [cleanLoop]
            simp only [hsep', hb2, hb3, htw, hdw]
            by_cases ho : out.length = 0 <;> simp [ho, he, hr]
          have hrend : atElemEnd r = true := atElemEnd_dropWhile rest
          have hrs := splitElems_of_atElemEnd r hrend
          have hrlen : r.length ≤ fuel := le_trans (length_dropWhile_le rest _) hlen'
          have hf : List.filter realElem ([] :: afterSep r) = List.filter realElem (afterSep r) := by
            simp [List.filter, realElem]
          rw [hstep, ih r _ dd hrlen ?_, hsplit, hrs, hf, List.filter_cons_of_pos hreal]
          · rfl
          · intro x hx
            rw [hrs] at hx
            rcases List.mem_cons.1 hx with h1 | h1
            · simp [h1]
            · exact hdd x (by rw [hsplit]; exact List.mem_cons_of_mem _ h1)

theorem addElems_extends (es : List (List Char)) :
    ∀ out : List Char, out <+: addElems out es := by
  induction es with
  | nil => intro out; simp [addElems]
  | cons e es ih =>
    intro out
    simp only [addElems]
    exact List.IsPrefix.trans ⟨_, (List.append_assoc _ _ _).symm⟩ (ih _)

theorem addElems_eq_joinElems (es : List (List Char)) :
    ∀ out : List Char, es ≠ [] → (∀ e ∈ es, e ≠ []) →
      addElems out es = out ++ (if out.length != 0 then ['/'] else []) ++ joinElems es := by
  induction es with
  | nil => intro out h; exact absurd rfl h
  | cons e es ih =>
    intro out _ hne
    have he : e ≠ [] := hne e (List.mem_cons_self _ _)
    cases es with
    | nil => simp [addElems, joinElems]
    | cons e1 es1 =>
      rw [addElems, ih _ (by simp) (fun x hx => hne x (List.mem_cons_of_mem _ hx))]
      have : ((out ++ (if out.length != 0 then ['/'] else []) ++ e).length != 0) = true := by
        simp [he]
      rw [if_pos this]
      simp [joinElems]

theorem splitElems_append (a b : List Char) :
    splitElems (a ++ '/' :: b) = splitElems a ++ splitElems b := by
  induction a with
  | nil => simp [splitElems, isPathSeparator]
  | cons c cs ih =>
    by_cases h : isPathSeparator c
    · simp [splitElems, h, ih]
    · have hne := splitElems_ne_nil cs
      cases hs : splitElems cs with
      | nil => exact absurd hs hne
      | cons e es => simp [splitElems, h, ih, hs]

theorem splitElems_of_no_sep (s : List Char) (h : s.all (fun c => !isPathSeparator c) = true) :
    splitElems s = [s] := by
  induction s with
  | nil => rfl
  | cons c cs ih =>
    simp only [List.all_cons, Bool.and_eq_true, Bool.not_eq_true'] at h
    simp [splitElems, h.1, ih h.2]

theorem filter_realElem_of_all (es : List (List Char)) (h : es.all realElem = true) :
    es.filter realElem = es := by
  rw [List.filter_eq_self]
  simpa using h

theorem realElem_ne_nil (e : List Char) (h : realElem e = true) : e ≠ [] := by
  intro he
  simp [realElem, he] at h

theorem realElem_ne_dotdot (e : List Char) (h : realElem e = true) : e ≠ ['.', '.'] := by
  intro he
  simp [realElem, he] at h

theorem realElem_head_not_sep (e : List Char) (h : realElem e = true) :
    isPathSeparator (e.headD '.') = false := by
  cases e with
  | nil => simp [realElem] at h
  | cons c cs =>
    simp only [realElem, List.all_cons, Bool.and_eq_true, Bool.not_eq_true'] at h
    simpa using h.1.1.2.1

/-- On a relative path without `..` elements, `Clean` keeps the real elements,
in order, joined by single separators (and gives `.` when there is none). -/
theorem Clean_of_noDotDot (p : String) (hne : p.data ≠ [])
    (hrel : isPathSeparator (p.data.headD '.') = false) (h : HasNoDotDot p = true) :
    Clean p =
      if (addElems [] ((splitElems p.data).filter realElem)).isEmpty then "."
      else ⟨addElems [] ((splitElems p.data).filter realElem)⟩ := by
  have hdd : ∀ e ∈ splitElems p.data, e ≠ ['.', '.'] := by
    simpa [HasNoDotDot] using h
  have hloop := cleanLoop_noDotDot p.data.length p.data [] 0 (le_refl _) hdd
  simp only [Clean]
  have h1 : p.data.isEmpty = false := by simpa using hne
  simp only [h1, hrel, hloop]
  simp

theorem IsCleanRel_data (p : String) (h : IsCleanRel p = true) :
    splitElems p.data ≠ [] ∧ (∀ e ∈ splitElems p.data, realElem e = true) := by
  refine ⟨splitElems_ne_nil _, ?_⟩
  simpa [IsCleanRel] using h

theorem HasNoDotDot_of_IsCleanRel (p : String) (h : IsCleanRel p = true) :
    HasNoDotDot p = true := by
  have := (IsCleanRel_data p h).2
  simp only [HasNoDotDot, List.all_eq_true]
  intro e he
  simpa using realElem_ne_dotdot e (this e he)

theorem IsCleanRel_head (p : String) (h : IsCleanRel p = true) :
    p.data ≠ [] ∧ isPathSeparator (p.data.headD '.') = false := by
  have hall := (IsCleanRel_data p h).2
  have hsplit := splitElems_eq_takeWhile p.data
  have hreal := hall _ (by rw [hsplit]; exact List.mem_cons_self _ _)
  cases hp : p.data with
  | nil => rw [hp] at hreal; simp [realElem] at hreal
  | cons c cs =>
    refine ⟨by simp, ?_⟩
    by_cases hc : isPathSeparator c
    · rw [hp] at hreal
      simp [List.takeWhile, hc, realElem] at hreal
    · simpa using hc

theorem addElems_nil_splitElems (p : String) (h : IsCleanRel p = true) :
    addElems [] ((splitElems p.data).filter realElem) = p.data := by
  obtain ⟨hne, hall⟩ := IsCleanRel_data p h
  rw [filter_realElem_of_all _ (by simpa using hall),
    addElems_eq_joinElems _ [] hne (fun e he => realElem_ne_nil e (hall e he)),
    joinElems_splitElems]
  simp

/-- `Clean` leaves a clean relative path as it is. -/
theorem Clean_of_IsCleanRel (p : String) (h : IsCleanRel p = true) : Clean p = p := by
  obtain ⟨hne, hrel⟩ := IsCleanRel_head p h
  rw [Clean_of_noDotDot p hne hrel (HasNoDotDot_of_IsCleanRel p h), addElems_nil_splitElems p h]
  have : p.data.isEmpty = false := by simpa using hne
  simp [this]

theorem addElems_append (es1 es2 : List (List Char)) :
    ∀ out : List Char, addElems out (es1 ++ es2) = addElems (addElems out es1) es2 := by
  induction es1 with
  | nil => intro out; rfl
  | cons e es ih =>
    intro out
    rw [List.cons_append]
    simp only [addElems]
    exact ih _

theorem intercalate_pair (d name : String) : "/".intercalate [d, name] = d ++ "/" ++ name := by
  simp [String.intercalate, String.intercalate.go]

theorem ne_empty_of_data_ne_nil (d : String) (h : d.data ≠ []) : d ≠ "" := by
  intro hd
  apply h
  rw [hd]

/-- `Join` of a clean relative directory and a name without `..` elements: the
directory followed by the real elements of the name. -/
theorem Join_pair_of_noDotDot (d name : String) (hd : IsCleanRel d = true)
    (hn : HasNoDotDot name = true) :
    Join [d, name] = ⟨addElems d.data ((splitElems name.data).filter realElem)⟩ := by
  obtain ⟨hdne, hdrel⟩ := IsCleanRel_head d hd
  obtain ⟨_, hdall⟩ := IsCleanRel_data d hd
  have hdata : (d ++ "/" ++ name).data = d.data ++ '/' :: name.data := by
    simp [String.data_append]
  have hsplit : splitElems (d ++ "/" ++ name).data = splitElems d.data ++ splitElems name.data := by
    rw [hdata, splitElems_append]
  have hne : (d ++ "/" ++ name).data ≠ [] := by rw [hdata]; simp [hdne]
  have hrel : isPathSeparator ((d ++ "/" ++ name).data.headD '.') = false := by
    rw [hdata]
    cases hp : d.data with
    | nil => exact absurd hp hdne
    | cons c cs => rw [hp] at hdrel; simpa using hdrel
  have hdd : HasNoDotDot (d ++ "/" ++ name) = true := by
    have h1 := HasNoDotDot_of_IsCleanRel d hd
    simp only [HasNoDotDot, hsplit, List.all_append, Bool.and_eq_true] at h1 hn ⊢
    exact ⟨h1, hn⟩
  have hpre := addElems_extends ((splitElems name.data).filter realElem) d.data
  have hres : addElems [] ((splitElems (d ++ "/" ++ name).data).filter realElem) =
      addElems d.data ((splitElems name.data).filter realElem) := by
    rw [hsplit, List.filter_append, addElems_append, addElems_nil_splitElems d hd]
  simp only [Join, if_pos (ne_empty_of_data_ne_nil d hdne), intercalate_pair]
  rw [Clean_of_noDotDot _ hne hrel hdd, hres]
  have : (addElems d.data ((splitElems name.data).filter realElem)).isEmpty = false := by
    obtain ⟨t, ht⟩ := hpre
    rw [← ht]
    simpa using fun h => absurd h hdne
  simp [this]

/-- `Join` of a clean relative directory and a name without `..` elements
begins with the directory. -/
theorem Join_pair_begins (d name : String) (hd : IsCleanRel d = true)
    (hn : HasNoDotDot name = true) : d.data <+: (Join [d, name]).data := by
  rw [Join_pair_of_noDotDot d name hd hn]
  exact addElems_extends _ _

/-- `Join` of a clean relative directory and a clean relative name: the two
with one separator between them. -/
theorem Join_pair_of_IsCleanRel (d name : String) (hd : IsCleanRel d = true)
    (hn : IsCleanRel name = true) : Join [d, name] = d ++ "/" ++ name := by
  obtain ⟨hdne, _⟩ := IsCleanRel_head d hd
  obtain ⟨hne, hall⟩ := IsCleanRel_data name hn
  rw [Join_pair_of_noDotDot d name hd (HasNoDotDot_of_IsCleanRel name hn),
    filter_realElem_of_all _ (by simpa using hall),
    addElems_eq_joinElems _ _ hne (fun e he => realElem_ne_nil e (hall e he)),
    joinElems_splitElems]
  apply String.ext
  have : (d.data.length != 0) = true := by
    cases hp : d.data with
    | nil => exact absurd hp hdne
    | cons c cs => simp
  rw [if_pos this]
  simp [String.data_append]

theorem Join_single_of_IsCleanRel (d : String) (hd : IsCleanRel d = true) : Join [d] = d := by
  obtain ⟨hdne, _⟩ := IsCleanRel_head d hd
  have : "/".intercalate [d] = d := by simp [String.intercalate, String.intercalate.go]
  simp only [Join, if_pos (ne_empty_of_data_ne_nil d hdne), this]
  exact Clean_of_IsCleanRel d hd

theorem IsCleanRel_of_realElem (name : String) (h : realElem name.data = true) :
    IsCleanRel name = true := by
  have hall : name.data.all (fun c => !isPathSeparator c) = true := by
    simp only [realElem, Bool.and_eq_true] at h
    exact h.1.1.2
  simp [IsCleanRel, splitElems_of_no_sep _ hall, h]

theorem IsCleanRel_append (a b : String) (ha : IsCleanRel a = true) (hb : IsCleanRel b = true) :
    IsCleanRel (a ++ "/" ++ b) = true := by
  have hdata : (a ++ "/" ++ b).data = a.data ++ '/' :: b.data := by
    simp [String.data_append]
  simp only [IsCleanRel, hdata, splitElems_append, List.all_append, Bool.and_eq_true] at ha hb ⊢
  exact ⟨ha, hb⟩

end filepath

namespace time

open filepath

theorem plainChar_digitChar (n : Nat) : plainChar (Nat.digitChar n) := by
  unfold plainChar
  match n with
  | 0 | 1 | 2 | 3 | 4 | 5 | 6 | 7 | 8 | 9 | 10 | 11 | 12 | 13 | 14 | 15 => exact ⟨by decide, by decide⟩
  | n + 16 =>
    have : Nat.digitChar (n + 16) = '*' := by simp [Nat.digitChar]
    rw [this]
    exact ⟨by decide, by decide⟩

theorem plainChar_toDigitsCore (fuel : Nat) :
    ∀ (n : Nat) (ds : List Char), (∀ c ∈ ds, plainChar c) →
      ∀ c ∈ Nat.toDigitsCore 10 fuel n ds, plainChar c := by
  induction fuel with
  | zero => intro n ds h; simpa [Nat.toDigitsCore] using h
  | succ fuel ih =>
    intro n ds h
    simp only [Nat.toDigitsCore]
    split
    · intro c hc
      rcases List.mem_cons.1 hc with h1 | h1
      · rw [h1]; exact plainChar_digitChar _
      · exact h c h1
    · apply ih
      intro c hc
      rcases List.mem_cons.1 hc with h1 | h1
      · rw [h1]; exact plainChar_digitChar _
      · exact h c h1

theorem toDigitsCore_ne_nil (fuel : Nat) :
    ∀ (n : Nat) (ds : List Char), ds ≠ [] → Nat.toDigitsCore 10 fuel n ds ≠ [] := by
  induction fuel with
  | zero => intro n ds h; simpa [Nat.toDigitsCore] using h
  | succ fuel ih =>
    intro n ds h
    simp only [Nat.toDigitsCore]
    split
    · simp
    · exact ih _ _ (by simp)

theorem toString_data (n : Nat) : (toString n).data = Nat.toDigits 10 n := rfl

theorem plain_toString (n : Nat) :
    (toString n).data ≠ [] ∧ ∀ c ∈ (toString n).data, plainChar c := by
  rw [toString_data]
  constructor
  · unfold Nat.toDigits
    simp only [Nat.toDigitsCore]
    split
    · simp
    · exact toDigitsCore_ne_nil _ _ _ (by simp)
  · exact plainChar_toDigitsCore _ _ _ (by simp)

theorem plain_padNat (n width : Nat) :
    (padNat n width).data ≠ [] ∧ ∀ c ∈ (padNat n width).data, plainChar c := by
  obtain ⟨h1, h2⟩ := plain_toString n
  have hd : (padNat n width).data =
      List.replicate (width - (toString n).length) '0' ++ (toString n).data := by
    simp [padNat, String.data_append]
  rw [hd]
  constructor
  · simp [h1]
  · intro c hc
    rcases List.mem_append.1 hc with h | h
    · rw [(List.mem_replicate.1 h).2]
      exact ⟨by decide, by decide⟩
    · exact h2 c h

theorem plain_appendInt (x : Int) (width : Nat) :
    (appendInt x width).data ≠ [] ∧ ∀ c ∈ (appendInt x width).data, plainChar c := by
  obtain ⟨h1, h2⟩ := plain_padNat x.natAbs width
  unfold appendInt
  split
  · have hd : ("-" ++ padNat x.natAbs width).data = '-' :: (padNat x.natAbs width).data := by
      simp [String.data_append]
    rw [hd]
    refine ⟨by simp, ?_⟩
    intro c hc
    rcases List.mem_cons.1 hc with h | h
    · rw [h]; exact ⟨by decide, by decide⟩
    · exact h2 c h
  · exact ⟨h1, h2⟩

theorem IsCleanRel_of_plain (s : String) (hne : s.data ≠ []) (h : ∀ c ∈ s.data, plainChar c) :
    IsCleanRel s = true := by
  apply IsCleanRel_of_realElem
  have hsep : s.data.all (fun c => !isPathSeparator c) = true := by
    simp only [List.all_eq_true, Bool.not_eq_true', isPathSeparator, beq_eq_false_iff_ne]
    exact fun c hc => (h c hc).1
  rw [realElem_iff _ hsep]
  refine ⟨hne, ?_, ?_⟩
  · intro h1
    exact (h '.' (by rw [h1]; simp)).2 rfl
  · intro h1
    exact (h '.' (by rw [h1]; simp)).2 rfl

/-- The formatted date `YYYY/MM/DD` is a clean relative path. -/
theorem IsCleanRel_Format (t : Time) : IsCleanRel t.Format = true := by
  unfold Time.Format
  have hy := plain_appendInt t.year 4
  have hm := plain_padNat t.month 2
  have hd := plain_padNat t.day 2
  exact IsCleanRel_append _ _
    (IsCleanRel_append _ _ (IsCleanRel_of_plain _ hy.1 hy.2) (IsCleanRel_of_plain _ hm.1 hm.2))
    (IsCleanRel_of_plain _ hd.1 hd.2)

theorem isLeap_iff (year : Int) :
    isLeap year = true ↔ (year % 4 = 0 ∧ (year % 100 ≠ 0 ∨ year % 400 = 0)) := by
  simp [isLeap]

theorem daysSinceYearOne_succ (year : Int) :
    daysSinceYearOne (year + 1) = daysSinceYearOne year + 365 + (if isLeap year then 1 else 0) := by
  unfold daysSinceYearOne
  by_cases h : isLeap year = true
  · rw [if_pos h]
    have := (isLeap_iff year).1 h
    omega
  · rw [if_neg h]
    have : ¬ (year % 4 = 0 ∧ (year % 100 ≠ 0 ∨ year % 400 = 0)) := fun h2 => h ((isLeap_iff year).2 h2)
    omega

/-- The Unix second `time.Date` computes for `day + 1` is the one of the next
civil day: a day past the end of the month counts on into the next month. -/
theorem unixOfFields_nextDay (t : Time) (hm1 : 1 ≤ t.month) (hm2 : t.month ≤ 12)
    (hd : t.day ≤ daysIn t.month t.year) :
    unixOfFields t.year t.month (t.day + 1) t.hour t.min t.sec =
      unixOfFields t.nextDay.year t.nextDay.month t.nextDay.day t.nextDay.hour t.nextDay.min
        t.nextDay.sec := by
  obtain ⟨y, m, d, h, mi, s, ns⟩ := t
  simp only at hm1 hm2 hd
  unfold Time.nextDay
  simp only
  by_cases h1 : d + 1 ≤ daysIn m y
  · simp [h1, unixOfFields]
  · have hdeq : d = daysIn m y := by omega
    simp only [h1, if_false]
    by_cases h12 : m < 12
    · simp only [h12, if_true, unixOfFields]
      have hcases : m = 1 ∨ m = 2 ∨ m = 3 ∨ m = 4 ∨ m = 5 ∨ m = 6 ∨ m = 7 ∨ m = 8 ∨ m = 9 ∨
          m = 10 ∨ m = 11 := by omega
      by_cases hl : isLeap y = true <;>
        rcases hcases with h | h | h | h | h | h | h | h | h | h | h <;>
        subst h <;> simp [hdeq, daysIn, daysBefore, hl] <;> omega
    · have hm : m = 12 := by omega
      subst hm
      simp only [h12, if_false, unixOfFields]
      rw [daysSinceYearOne_succ]
      by_cases hl : isLeap y = true
      · have hl2 : isLeap (y + 1) = false := by
          have := (isLeap_iff y).1 hl
          by_contra hc
          have := (isLeap_iff (y + 1)).1 (by simpa using hc)
          omega
        simp [hdeq, daysIn, daysBefore, hl, hl2]
        omega
      · simp [hdeq, daysIn, daysBefore, hl]
        omega

end time

namespace imgmanager

open filepath time

variable {σ Img : Type}

/-! ## Theorems on the image manager -/

section Deletion

theorem DeleteSingleImgAsync_queue (im : ImgManager σ) (path : String) :
    (DeleteSingleImgAsync im path).actQueue =
      im.actQueue ++ (if path ≠ "" then [⟨actType.actDelete, path, []⟩] else []) := by
  unfold DeleteSingleImgAsync
  by_cases h : path = "" <;> simp [h]

/-- C10: `DeleteImg` appends one Delete action per non-empty entry, in list
order and with that entry as path, and nothing for an empty entry; the actions
already queued stay in front. `DeleteSingleImgAsync ""` changes nothing. -/
theorem DeleteImg_enqueues (im : ImgManager σ) (paths : List String) :
    (DeleteImg im paths).actQueue =
        im.actQueue ++
          (paths.filter (fun p => p ≠ "")).map (fun p => ⟨actType.actDelete, p, []⟩) ∧
      DeleteSingleImgAsync im "" = im ∧
      (DeleteImg im ["", "a/b.jpg", ""]).actQueue =
        im.actQueue ++ [⟨actType.actDelete, "a/b.jpg", []⟩] := by
  refine ⟨?_, rfl, by simp [DeleteImg, DeleteSingleImgAsync]⟩
  induction paths generalizing im with
  | nil => simp [DeleteImg]
  | cons p ps ih =>
    by_cases h : p = ""
    · simp [DeleteImg, h, ih]
    · simp [DeleteImg, h, ih, DeleteSingleImgAsync_queue]

end Deletion

section Thumbnail

/-- C4 (what the code does): when the extension of `path` is neither
`JpegSuffix` nor `PngSuffix`, `GenerateThumbnail` returns no error at all: no
case of the switch matches, the nil image reaches `resize.Thumbnail` and the call
panics, with no decode and no upload made. -/
theorem GenerateThumbnail_unsupported_ext_panics (env : Env σ Img) (im : ImgManager σ)
    (path : String) (content : Bytes)
    (hj : Ext path ≠ env.JpegSuffix) (hp : Ext path ≠ env.PngSuffix) :
    (GenerateThumbnail env im path content).1 = Outcome.panicked ∧
      (GenerateThumbnail env im path content).2.calls = im.calls ∧
      (GenerateThumbnail env im path content).2.dri = im.dri := by
  simp [GenerateThumbnail, decodeByExt, hj, hp]

/-- A `.gif` path with suffixes `.jpg` and `.png`: the call panics. -/
theorem GenerateThumbnail_unsupported_ext_panics_witness :
    (GenerateThumbnail (memEnv (Except.error "no exif")) (NewImgManager [] ⟨0, 0, 0, 0⟩)
        "2023/05/01/a.gif" [71, 73, 70]).1 = Outcome.panicked :=
  (GenerateThumbnail_unsupported_ext_panics (memEnv (Except.error "no exif"))
    (NewImgManager [] ⟨0, 0, 0, 0⟩) "2023/05/01/a.gif" [71, 73, 70]
    (by decide) (by decide)).1

end Thumbnail

section Retrieval

/-- C5: when every drive and library operation succeeds, `GetThumbnail` on a
path whose thumbnail is absent checks existence, downloads the original once,
decodes, resizes, encodes and uploads the thumbnail once, then downloads the
thumbnail path and returns that handle; on a path whose thumbnail exists it only
checks existence and downloads the thumbnail. In both cases the handle's `Path`
is the thumbnail path. -/
theorem GetThumbnail_generates_only_when_absent (env : Env σ Img) (im : ImgManager σ)
    (path : String) :
    (∀ (d1 d2 d3 d4 : σ) (content tc : Stream) (size tsize : Int) (data buf : Bytes)
        (img : Img) (dcalls : List Call),
        env.drive.IsExist (Join [defaultThumbnailDir, path]) im.dri = (Except.ok false, d1) →
        env.drive.Download path d1 = (Except.ok (content, size), d2) →
        content.readAll = Except.ok data →
        decodeByExt env path data = (Except.ok (some img), dcalls) →
        env.codec.jpegEncode
            (env.codec.Thumbnail (uint im.opt.ThumbnailMaxWidth) (uint im.opt.ThumbnailMaxHeight)
              img) 75 = Except.ok buf →
        env.drive.Upload (Join [defaultThumbnailDir, path]) buf buf.length d2 = (none, d3) →
        env.drive.Download (Join [defaultThumbnailDir, path]) d3 = (Except.ok (tc, tsize), d4) →
        (GetThumbnail env im path).1 =
            (⟨Join [defaultThumbnailDir, path], some tc, tsize⟩, Outcome.ok) ∧
          (GetThumbnail env im path).2.calls =
            im.calls ++ [Call.IsExist (Join [defaultThumbnailDir, path]), Call.Download path] ++
              dcalls ++
              [Call.Thumbnail (uint im.opt.ThumbnailMaxWidth) (uint im.opt.ThumbnailMaxHeight),
                Call.jpegEncode 75,
                Call.Upload (Join [defaultThumbnailDir, path]) buf buf.length,
                Call.Download (Join [defaultThumbnailDir, path])] ∧
          (GetThumbnail env im path).2.dri = d4) ∧
    (∀ (d1 d4 : σ) (tc : Stream) (tsize : Int),
        env.drive.IsExist (Join [defaultThumbnailDir, path]) im.dri = (Except.ok true, d1) →
        env.drive.Download (Join [defaultThumbnailDir, path]) d1 = (Except.ok (tc, tsize), d4) →
        (GetThumbnail env im path).1 =
            (⟨Join [defaultThumbnailDir, path], some tc, tsize⟩, Outcome.ok) ∧
          (GetThumbnail env im path).2.calls =
            im.calls ++ [Call.IsExist (Join [defaultThumbnailDir, path]),
              Call.Download (Join [defaultThumbnailDir, path])] ∧
          (GetThumbnail env im path).2.dri = d4) := by
  constructor
  · intro d1 d2 d3 d4 content tc size tsize data buf img dcalls h1 h2 h3 h4 h5 h6 h7
    simp [GetThumbnail, downloadThumbnail, driIsExist, driDownload, GenerateThumbnail, driUpload,
      h1, h2, h3, h4, h5, h6, h7]
  · intro d1 d4 tc tsize h1 h2
    simp [GetThumbnail, downloadThumbnail, driIsExist, driDownload, h1, h2]

/-- A first fetch generates and uploads the thumbnail; a second fetch, with the
thumbnail now present, only checks and downloads it. -/
theorem GetThumbnail_generates_only_when_absent_witness :
    (GetThumbnail (memEnv (Except.error "no exif"))
          { NewImgManager [("2023/05/01/a.jpg", [1, 2])] ⟨0, 0, 0, 0⟩ with calls := [] }
          "2023/05/01/a.jpg").2.calls =
        [Call.IsExist ".thumbnail/2023/05/01/a.jpg", Call.Download "2023/05/01/a.jpg",
          Call.jpegDecode [1, 2], Call.Thumbnail 500 500, Call.jpegEncode 75,
          Call.Upload ".thumbnail/2023/05/01/a.jpg" [1, 2] 2,
          Call.Download ".thumbnail/2023/05/01/a.jpg"] ∧
      (GetThumbnail (memEnv (Except.error "no exif"))
          { NewImgManager
              [(".thumbnail/2023/05/01/a.jpg", [1, 2]), ("2023/05/01/a.jpg", [1, 2])]
              ⟨0, 0, 0, 0⟩ with calls := [] }
          "2023/05/01/a.jpg").2.calls =
        [Call.IsExist ".thumbnail/2023/05/01/a.jpg",
          Call.Download ".thumbnail/2023/05/01/a.jpg"] :=
  ⟨((GetThumbnail_generates_only_when_absent (memEnv (Except.error "no exif"))
      { NewImgManager [("2023/05/01/a.jpg", [1, 2])] ⟨0, 0, 0, 0⟩ with calls := [] }
      "2023/05/01/a.jpg").1
      [("2023/05/01/a.jpg", [1, 2])] [("2023/05/01/a.jpg", [1, 2])]
      [(".thumbnail/2023/05/01/a.jpg", [1, 2]), ("2023/05/01/a.jpg", [1, 2])]
      [(".thumbnail/2023/05/01/a.jpg", [1, 2]), ("2023/05/01/a.jpg", [1, 2])]
      ⟨Except.ok [1, 2]⟩ ⟨Except.ok [1, 2]⟩ 2 2 [1, 2] [1, 2] [1, 2] [Call.jpegDecode [1, 2]]
      rfl rfl rfl rfl rfl rfl rfl).2.1,
   ((GetThumbnail_generates_only_when_absent (memEnv (Except.error "no exif"))
      { NewImgManager
          [(".thumbnail/2023/05/01/a.jpg", [1, 2]), ("2023/05/01/a.jpg", [1, 2])]
          ⟨0, 0, 0, 0⟩ with calls := [] }
      "2023/05/01/a.jpg").2
      [(".thumbnail/2023/05/01/a.jpg", [1, 2]), ("2023/05/01/a.jpg", [1, 2])]
      [(".thumbnail/2023/05/01/a.jpg", [1, 2]), ("2023/05/01/a.jpg", [1, 2])]
      ⟨Except.ok [1, 2]⟩ 2 rfl rfl).2.1⟩

end Retrieval

section Worker

theorem GenerateThumbnail_keeps_queue (env : Env σ Img) (im : ImgManager σ) (path : String)
    (content : Bytes) :
    (GenerateThumbnail env im path content).2.actQueue = im.actQueue ∧
      (GenerateThumbnail env im path content).2.logger = im.logger := by
  simp only [GenerateThumbnail, driUpload]
  rcases h : (decodeByExt env path content).1 with e | (_ | img)
  · simp
  · simp
  · dsimp only
    split
    · simp
    · rename_i buf _
      cases h3 : (env.drive.Upload (Join [defaultThumbnailDir, path]) buf buf.length im.dri).1 <;>
        simp

/-- C7: one worker step performs the one operation of the action's kind (the
drive's upload with the action's path, payload and the payload's length; the
thumbnail generator with path and payload; the drive's delete with the path),
leaves the queue as it is, logs exactly the error the operation returned, and
then takes the next item. -/
theorem dispatch_performs_one_operation (env : Env σ Img) (im : ImgManager σ) (act : action) :
    (act.t = actType.actUpload →
        (dispatch env im act).2.calls =
            im.calls ++ [Call.Upload act.path act.content act.content.length] ∧
          (dispatch env im act).2.dri =
            (env.drive.Upload act.path act.content act.content.length im.dri).2 ∧
          (dispatch env im act).1 =
            (match (env.drive.Upload act.path act.content act.content.length im.dri).1 with
              | some e => Outcome.error e
              | none => Outcome.ok)) ∧
      (act.t = actType.actGenerateThumbnail →
        (dispatch env im act).2.calls = (GenerateThumbnail env im act.path act.content).2.calls ∧
          (dispatch env im act).2.dri = (GenerateThumbnail env im act.path act.content).2.dri ∧
          (dispatch env im act).1 = (GenerateThumbnail env im act.path act.content).1) ∧
      (act.t = actType.actDelete →
        (dispatch env im act).2.calls = im.calls ++ [Call.Delete act.path] ∧
          (dispatch env im act).2.dri = (env.drive.Delete act.path im.dri).2 ∧
          (dispatch env im act).1 =
            (match (env.drive.Delete act.path im.dri).1 with
              | some e => Outcome.error e
              | none => Outcome.ok)) ∧
      (dispatch env im act).2.actQueue = im.actQueue ∧
      (∀ e, (dispatch env im act).1 = Outcome.error e →
        (dispatch env im act).2.logger = im.logger ++
          [match act.t with
            | actType.actUpload => LogEntry.errUploading e
            | actType.actGenerateThumbnail => LogEntry.errGeneratingThumbnail e
            | actType.actDelete => LogEntry.errDeleting e]) ∧
      ((dispatch env im act).1 = Outcome.ok → (dispatch env im act).2.logger = im.logger) ∧
      (∀ (fuel : Nat) (queue : List action),
        (dispatch env { im with actQueue := queue } act).1 ≠ Outcome.panicked →
        runWorker env (fuel + 1) { im with actQueue := act :: queue } =
          runWorker env fuel (dispatch env { im with actQueue := queue } act).2) := by
  have hq := GenerateThumbnail_keeps_queue env im act.path act.content
  refine ⟨?_, ?_, ?_, ?_, ?_, ?_, ?_⟩
  · intro ht
    unfold dispatch driUpload
    rw [ht]
    dsimp only
    cases h : (env.drive.Upload act.path act.content act.content.length im.dri).1 <;> simp [h]
  · intro ht
    unfold dispatch
    rw [ht]
    dsimp only
    split <;> simp_all
  · intro ht
    unfold dispatch driDelete
    rw [ht]
    dsimp only
    cases h : (env.drive.Delete act.path im.dri).1 <;> simp [h]
  · unfold dispatch driUpload driDelete
    cases act.t
    · dsimp only
      split <;> simp_all
    · dsimp only
      cases h : (env.drive.Upload act.path act.content act.content.length im.dri).1 <;> simp [h]
    · dsimp only
      cases h : (env.drive.Delete act.path im.dri).1 <;> simp [h]
  · intro e
    unfold dispatch driUpload driDelete
    cases act.t
    · dsimp only
      split
      · rename_i h
        simp_all
      · rename_i h1 h2
        intro h3
        exfalso
        exact h2 e _ (Prod.ext h3 rfl)
    · dsimp only
      cases h : (env.drive.Upload act.path act.content act.content.length im.dri).1 <;> simp [h]
    · dsimp only
      cases h : (env.drive.Delete act.path im.dri).1 <;> simp [h]
  · unfold dispatch driUpload driDelete
    cases act.t
    · dsimp only
      split
      · rename_i h
        simp_all
      · intro _
        exact hq.2
    · dsimp only
      cases h : (env.drive.Upload act.path act.content act.content.length im.dri).1 <;> simp [h]
    · dsimp only
      cases h : (env.drive.Delete act.path im.dri).1 <;> simp [h]
  · intro fuel queue hne
    simp only [runWorker]

/-- An upload action whose upload succeeds: one upload call, nothing logged,
and the worker takes the next item (here: blocks on the emptied queue). -/
theorem dispatch_performs_one_operation_witness :
    (dispatch (memEnv (Except.error "no exif")) (NewImgManager [] ⟨0, 0, 0, 0⟩)
        ⟨actType.actUpload, "2023/05/01/a.jpg", [1, 2]⟩).2.calls =
      [Call.Upload "2023/05/01/a.jpg" [1, 2] 2] :=
  ((dispatch_performs_one_operation (memEnv (Except.error "no exif"))
    (NewImgManager [] ⟨0, 0, 0, 0⟩) ⟨actType.actUpload, "2023/05/01/a.jpg", [1, 2]⟩).1 rfl).1

end Worker

section Upload

theorem selectDate_primary (m : ImageMetadata) (h : m.Datetime ≠ "") :
    selectDate m = m.Datetime := by
  simp [selectDate, h]

theorem dot_or_mk_ne_empty (l : List Char) :
    (if l.isEmpty then "." else (⟨l⟩ : String)) ≠ "" := by
  cases l with
  | nil => decide
  | cons c cs =>
    intro h
    have := congrArg String.data h
    simp at this

theorem Clean_ne_empty (p : String) : Clean p ≠ "" := by
  unfold Clean
  split
  · decide
  · exact dot_or_mk_ne_empty _

theorem Join_pair_ne_empty (d name : String) (hd : d ≠ "") : Join [d, name] ≠ "" := by
  simp only [Join, if_pos hd]
  exact Clean_ne_empty _

theorem Parse_scenario : Parse "2023:05:01 10:00:00" = some ⟨2023, 5, 1, 10, 0, 0, 0⟩ := by decide

theorem resolveTime_of_metadata (meta : Except Err ImageMetadata) (date : String) (now tm : Time)
    (m : ImageMetadata) (hm : meta = Except.ok m) (hp : Parse (selectDate m) = some tm)
    (hz : tm ≠ Time.zero) : resolveTime meta date now = tm := by
  subst hm
  simp [resolveTime, timeFromMetadata, hp, Time.IsZero, hz]

theorem timeFromMetadata_unusable (meta : Except Err ImageMetadata)
    (h : ∀ m, meta = Except.ok m →
      Parse (selectDate m) = none ∨ Parse (selectDate m) = some Time.zero) :
    timeFromMetadata meta = Time.zero := by
  cases meta with
  | error e => rfl
  | ok m =>
    rcases h m rfl with h1 | h1 <;> simp [timeFromMetadata, h1]

theorem resolveTime_of_hint (meta : Except Err ImageMetadata) (date : String) (now td : Time)
    (h : timeFromMetadata meta = Time.zero) (hp : Parse date = some td) (hz : td ≠ Time.zero) :
    resolveTime meta date now = td := by
  simp [resolveTime, h, hp, Time.IsZero, hz]

theorem resolveTime_of_now (meta : Except Err ImageMetadata) (date : String) (now : Time)
    (h : timeFromMetadata meta = Time.zero)
    (hp : Parse date = none ∨ Parse date = some Time.zero) :
    resolveTime meta date now = now := by
  rcases hp with hp | hp <;> simp [resolveTime, h, hp, Time.IsZero]

theorem UploadImg_result (env : Env σ Img) (now : Time) (im : ImgManager σ) (content : Stream)
    (data : Bytes) (name date : String) (hread : content.readAll = Except.ok data) :
    (UploadImg env now im content name date).1 = none ∧
      (UploadImg env now im content name date).2.actQueue =
        im.actQueue ++ [⟨actType.actUpload,
          Join [(resolveTime (env.GetImageMetadata data) date now).Format, name], data⟩] ∧
      (UploadImg env now im content name date).2.calls = im.calls ∧
      (UploadImg env now im content name date).2.dri = im.dri := by
  simp only [UploadImg, hread, UploadImgAsync]
  cases env.GetImageMetadata data <;> simp

/-- C1 (amended): when the content is read, `UploadImg` returns no error and
appends exactly one Upload action, with the bytes read as payload and the path
`filepath.Join(YYYY/MM/DD, name)` of the resolved timestamp. When `name` is a
clean relative path (real elements separated by single slashes, for instance a
plain file name) that path is the zero-padded `YYYY/MM/DD/` followed by `name`
unchanged; with name `photo.jpg` and primary capture time `2023:05:01 10:00:00`
it is `2023/05/01/photo.jpg`. -/
theorem UploadImg_enqueues_dated_upload (env : Env σ Img) (now : Time) (im : ImgManager σ)
    (content : Stream) (data : Bytes) (name date : String)
    (hread : content.readAll = Except.ok data) :
    (UploadImg env now im content name date).1 = none ∧
      (UploadImg env now im content name date).2.actQueue =
        im.actQueue ++ [⟨actType.actUpload,
          Join [(resolveTime (env.GetImageMetadata data) date now).Format, name], data⟩] ∧
      (IsCleanRel name = true →
        Join [(resolveTime (env.GetImageMetadata data) date now).Format, name] =
          appendInt (resolveTime (env.GetImageMetadata data) date now).year 4 ++ "/" ++
            padNat (resolveTime (env.GetImageMetadata data) date now).month 2 ++ "/" ++
            padNat (resolveTime (env.GetImageMetadata data) date now).day 2 ++ "/" ++ name) ∧
      (∀ m, env.GetImageMetadata data = Except.ok m → m.Datetime = "2023:05:01 10:00:00" →
        name = "photo.jpg" →
        (UploadImg env now im content name date).2.actQueue =
          im.actQueue ++ [⟨actType.actUpload, "2023/05/01/photo.jpg", data⟩]) := by
  obtain ⟨h1, h2, _, _⟩ := UploadImg_result env now im content data name date hread
  refine ⟨h1, h2, ?_, ?_⟩
  · intro hname
    exact Join_pair_of_IsCleanRel _ name
      (IsCleanRel_Format (resolveTime (env.GetImageMetadata data) date now)) hname
  · intro m hm hd hn
    have hsel : selectDate m = "2023:05:01 10:00:00" := by
      rw [selectDate_primary m (by rw [hd]; decide), hd]
    have ht : resolveTime (env.GetImageMetadata data) date now = ⟨2023, 5, 1, 10, 0, 0, 0⟩ :=
      resolveTime_of_metadata _ date now _ m hm (by rw [hsel]; exact Parse_scenario) (by decide)
    have hp : Join [(⟨2023, 5, 1, 10, 0, 0, 0⟩ : Time).Format, "photo.jpg"] =
        "2023/05/01/photo.jpg" := by decide
    rw [h2, ht, hn, hp]

/-- The scenario of the specification, run on the in-memory drive. -/
theorem UploadImg_enqueues_dated_upload_witness :
    (UploadImg (memEnv (Except.ok ⟨"2023:05:01 10:00:00", "", "", ""⟩)) ⟨2026, 11, 4, 12, 0, 0, 0⟩
        (NewImgManager [] ⟨0, 0, 0, 0⟩) ⟨Except.ok [255, 216]⟩ "photo.jpg" "").2.actQueue =
      [⟨actType.actUpload, "2023/05/01/photo.jpg", [255, 216]⟩] :=
  (UploadImg_enqueues_dated_upload (memEnv (Except.ok ⟨"2023:05:01 10:00:00", "", "", ""⟩))
    ⟨2026, 11, 4, 12, 0, 0, 0⟩ (NewImgManager [] ⟨0, 0, 0, 0⟩) ⟨Except.ok [255, 216]⟩ [255, 216]
    "photo.jpg" "" rfl).2.2.2 ⟨"2023:05:01 10:00:00", "", "", ""⟩ rfl rfl rfl

/-- C1 as stated fails: with the resolved date 2023-05-01 and the name
`../photo.jpg`, the path enqueued is `2023/05/photo.jpg`, not `2023/05/01/`
followed by the name; with the empty name it is `2023/05/01`. -/
theorem UploadImg_path_is_cleaned :
    resolveTime (Except.ok ⟨"2023:05:01 10:00:00", "", "", ""⟩) "" ⟨2026, 11, 4, 12, 0, 0, 0⟩ =
        ⟨2023, 5, 1, 10, 0, 0, 0⟩ ∧
      (UploadImg (memEnv (Except.ok ⟨"2023:05:01 10:00:00", "", "", ""⟩))
          ⟨2026, 11, 4, 12, 0, 0, 0⟩ (NewImgManager [] ⟨0, 0, 0, 0⟩) ⟨Except.ok [255, 216]⟩
          "../photo.jpg" "").2.actQueue =
        [⟨actType.actUpload, "2023/05/photo.jpg", [255, 216]⟩] ∧
      "2023/05/photo.jpg" ≠ "2023/05/01/" ++ "../photo.jpg" ∧
      (UploadImg (memEnv (Except.ok ⟨"2023:05:01 10:00:00", "", "", ""⟩))
          ⟨2026, 11, 4, 12, 0, 0, 0⟩ (NewImgManager [] ⟨0, 0, 0, 0⟩) ⟨Except.ok [255, 216]⟩
          "" "").2.actQueue =
        [⟨actType.actUpload, "2023/05/01", [255, 216]⟩] := by
  decide

/-- C3 (amended): the resolved timestamp is the parsed metadata timestamp when
extraction succeeds and the selected field parses to a time other than the zero
time (0001-01-01 00:00:00); failing that, the parsed date hint when it parses to
a time other than the zero time; failing that, the current time. None of this
makes `UploadImg` return an error; the path it enqueues is never empty, and it
begins with the `YYYY/MM/DD` of the resolved timestamp when no element of
`name` is `..`. -/
theorem UploadImg_time_precedence (env : Env σ Img) (now : Time) (im : ImgManager σ)
    (content : Stream) (data : Bytes) (name date : String)
    (hread : content.readAll = Except.ok data) :
    (∀ m tm, env.GetImageMetadata data = Except.ok m → Parse (selectDate m) = some tm →
        tm ≠ Time.zero → resolveTime (env.GetImageMetadata data) date now = tm) ∧
      ((∀ m, env.GetImageMetadata data = Except.ok m →
          Parse (selectDate m) = none ∨ Parse (selectDate m) = some Time.zero) →
        ∀ td, Parse date = some td → td ≠ Time.zero →
          resolveTime (env.GetImageMetadata data) date now = td) ∧
      ((∀ m, env.GetImageMetadata data = Except.ok m →
          Parse (selectDate m) = none ∨ Parse (selectDate m) = some Time.zero) →
        (Parse date = none ∨ Parse date = some Time.zero) →
          resolveTime (env.GetImageMetadata data) date now = now) ∧
      (UploadImg env now im content name date).1 = none ∧
      (∃ act, (UploadImg env now im content name date).2.actQueue = im.actQueue ++ [act] ∧
        act.t = actType.actUpload ∧ act.path ≠ "" ∧
        (HasNoDotDot name = true →
          (resolveTime (env.GetImageMetadata data) date now).Format.data <+: act.path.data)) := by
  obtain ⟨h1, h2, _, _⟩ := UploadImg_result env now im content data name date hread
  refine ⟨?_, ?_, ?_, h1, ⟨_, h2, rfl, ?_, ?_⟩⟩
  · intro m tm hm hp hz
    exact resolveTime_of_metadata _ date now tm m hm hp hz
  · intro hu td hp hz
    exact resolveTime_of_hint _ date now td (timeFromMetadata_unusable _ hu) hp hz
  · intro hu hp
    exact resolveTime_of_now _ date now (timeFromMetadata_unusable _ hu) hp
  · exact Join_pair_ne_empty _ _
      (ne_empty_of_data_ne_nil _ (IsCleanRel_head _ (IsCleanRel_Format _)).1)
  · intro hn
    exact Join_pair_begins _ _ (IsCleanRel_Format _) hn

/-- Extraction fails and the hint parses: the hint's date is used. -/
theorem UploadImg_time_precedence_witness :
    resolveTime (Except.error "no exif") "2022:12:31 23:59:59" ⟨2026, 11, 4, 12, 0, 0, 0⟩ =
      ⟨2022, 12, 31, 23, 59, 59, 0⟩ :=
  (UploadImg_time_precedence (memEnv (Except.error "no exif")) ⟨2026, 11, 4, 12, 0, 0, 0⟩
    (NewImgManager [] ⟨0, 0, 0, 0⟩) ⟨Except.ok [255, 216]⟩ [255, 216] "photo.jpg"
    "2022:12:31 23:59:59" rfl).2.1
    (fun m hm => by cases hm) ⟨2022, 12, 31, 23, 59, 59, 0⟩ (by decide) (by decide)

/-- C3 as stated fails: the metadata time `0001:01:01 00:00:00` parses, yet the
date hint is used instead of it; and with the name `../../x.jpg` the enqueued
path `2023/x.jpg` does not begin with the resolved date `2023/05/01`. -/
theorem UploadImg_zero_metadata_time_yields_to_hint :
    Parse (selectDate ⟨"0001:01:01 00:00:00", "", "", ""⟩) = some ⟨1, 1, 1, 0, 0, 0, 0⟩ ∧
      resolveTime (Except.ok ⟨"0001:01:01 00:00:00", "", "", ""⟩) "2023:05:01 10:00:00"
          ⟨2026, 11, 4, 12, 0, 0, 0⟩ = ⟨2023, 5, 1, 10, 0, 0, 0⟩ ∧
      (UploadImg (memEnv (Except.ok ⟨"0001:01:01 00:00:00", "", "", ""⟩))
          ⟨2026, 11, 4, 12, 0, 0, 0⟩ (NewImgManager [] ⟨0, 0, 0, 0⟩) ⟨Except.ok [255, 216]⟩
          "../../x.jpg" "2023:05:01 10:00:00").2.actQueue =
        [⟨actType.actUpload, "2023/x.jpg", [255, 216]⟩] := by
  decide

theorem selectDate_eq_spec (m : ImageMetadata) : selectDate m = specFirstNonEmpty m := by
  unfold selectDate specFirstNonEmpty
  by_cases h1 : m.Datetime = "" <;> by_cases h2 : m.DateTimeOriginal = "" <;>
    by_cases h3 : m.CreateDate = "" <;> by_cases h4 : m.ModifyDate = "" <;>
    simp [List.find?, h1, h2, h3, h4]

theorem timeFromMetadata_ok (m : ImageMetadata) :
    timeFromMetadata (Except.ok m) = (Parse (selectDate m)).getD Time.zero := by
  cases h : Parse (selectDate m) <;> simp [timeFromMetadata, h]

theorem resolveTime_unparsed (m : ImageMetadata) (e : Err) (date : String) (now : Time)
    (h : Parse (selectDate m) = none) :
    resolveTime (Except.ok m) date now = resolveTime (Except.error e) date now := by
  simp [resolveTime, timeFromMetadata, h]

/-- C2: with the content read and the metadata extracted, the string `UploadImg`
hands to `time.Parse` is the first non-empty field in the order Datetime,
DateTimeOriginal, CreateDate, ModifyDate (a non-empty primary wins over every
other field, original wins when primary is empty, and so on; it is empty exactly
when all four are): the metadata time is the parse of that string, the Upload
action `UploadImg` enqueues is dated by it whenever it parses to a non-zero time,
and when it does not parse no other field is tried (the time is resolved as if
extraction had failed). -/
theorem UploadImg_parses_first_nonempty (env : Env σ Img) (now : Time) (im : ImgManager σ)
    (content : Stream) (data : Bytes) (name date : String) (m : ImageMetadata)
    (hread : content.readAll = Except.ok data)
    (hmeta : env.GetImageMetadata data = Except.ok m) :
    selectDate m = specFirstNonEmpty m ∧
      (m.Datetime ≠ "" → specFirstNonEmpty m = m.Datetime) ∧
      (m.Datetime = "" → m.DateTimeOriginal ≠ "" → specFirstNonEmpty m = m.DateTimeOriginal) ∧
      (m.Datetime = "" → m.DateTimeOriginal = "" → m.CreateDate ≠ "" →
        specFirstNonEmpty m = m.CreateDate) ∧
      (m.Datetime = "" → m.DateTimeOriginal = "" → m.CreateDate = "" →
        specFirstNonEmpty m = m.ModifyDate) ∧
      (specFirstNonEmpty m = "" ↔
        m.Datetime = "" ∧ m.DateTimeOriginal = "" ∧ m.CreateDate = "" ∧ m.ModifyDate = "") ∧
      timeFromMetadata (env.GetImageMetadata data) =
        (Parse (specFirstNonEmpty m)).getD Time.zero ∧
      (∀ t, Parse (specFirstNonEmpty m) = some t → t ≠ Time.zero →
        (UploadImg env now im content name date).2.actQueue =
          im.actQueue ++ [⟨actType.actUpload, Join [t.Format, name], data⟩]) ∧
      (Parse (specFirstNonEmpty m) = none →
        ∀ e, (UploadImg env now im content name date).2.actQueue =
          im.actQueue ++ [⟨actType.actUpload,
            Join [(resolveTime (Except.error e) date now).Format, name], data⟩]) := by
  have hs := selectDate_eq_spec m
  obtain ⟨_, hq, _, _⟩ := UploadImg_result env now im content data name date hread
  refine ⟨hs, ?_, ?_, ?_, ?_, ?_, ?_, ?_, ?_⟩
  · intro h; simp [specFirstNonEmpty, List.find?, h]
  · intro h1 h2; simp [specFirstNonEmpty, List.find?, h1, h2]
  · intro h1 h2 h3; simp [specFirstNonEmpty, List.find?, h1, h2, h3]
  · intro h1 h2 h3
    by_cases h4 : m.ModifyDate = "" <;> simp [specFirstNonEmpty, List.find?, h1, h2, h3, h4]
  · by_cases h1 : m.Datetime = "" <;> by_cases h2 : m.DateTimeOriginal = "" <;>
      by_cases h3 : m.CreateDate = "" <;> by_cases h4 : m.ModifyDate = "" <;>
      simp [specFirstNonEmpty, List.find?, h1, h2, h3, h4]
  · rw [hmeta, timeFromMetadata_ok, hs]
  · intro t ht hz
    rw [hq, resolveTime_of_metadata _ date now t m hmeta (by rw [hs]; exact ht) hz]
  · intro hp e
    rw [hq, hmeta, resolveTime_unparsed m e date now (by rw [hs]; exact hp)]

/-- Primary empty, original and created set: the original is parsed and dates
the upload; the hint and the current time are not used. -/
theorem UploadImg_parses_first_nonempty_witness :
    (UploadImg (memEnv (Except.ok ⟨"", "2021:03:04 05:06:07", "2022:01:01 00:00:00", ""⟩))
        ⟨2026, 11, 4, 12, 0, 0, 0⟩ (NewImgManager [] ⟨0, 0, 0, 0⟩) ⟨Except.ok [255, 216]⟩
        "photo.jpg" "2020:02:02 02:02:02").2.actQueue =
      [⟨actType.actUpload, "2021/03/04/photo.jpg", [255, 216]⟩] :=
  (UploadImg_parses_first_nonempty
    (memEnv (Except.ok ⟨"", "2021:03:04 05:06:07", "2022:01:01 00:00:00", ""⟩))
    ⟨2026, 11, 4, 12, 0, 0, 0⟩ (NewImgManager [] ⟨0, 0, 0, 0⟩) ⟨Except.ok [255, 216]⟩ [255, 216]
    "photo.jpg" "2020:02:02 02:02:02" ⟨"", "2021:03:04 05:06:07", "2022:01:01 00:00:00", ""⟩
    rfl rfl).2.2.2.2.2.2.2.1 ⟨2021, 3, 4, 5, 6, 7, 0⟩ (by decide) (by decide)

end Upload

section ThumbnailPath

theorem decodeByExt_calls (env : Env σ Img) (path : String) (content : Bytes) :
    ∀ c ∈ (decodeByExt env path content).2, c = Call.jpegDecode content ∨ c = Call.pngDecode content := by
  unfold decodeByExt
  split
  · simp
  · split <;> simp

theorem GenerateThumbnail_new_calls (env : Env σ Img) (im : ImgManager σ) (path : String)
    (content : Bytes) :
    ∃ new, (GenerateThumbnail env im path content).2.calls = im.calls ++ new ∧
      ∀ c ∈ new, (∀ p ct sz, c = Call.Upload p ct sz → p = Join [defaultThumbnailDir, path]) ∧
        (∀ p, c ≠ Call.IsExist p) ∧ (∀ p, c ≠ Call.Download p) ∧ (∀ p, c ≠ Call.Delete p) := by
  have hd := decodeByExt_calls env path content
  simp only [GenerateThumbnail, driUpload]
  rcases h : (decodeByExt env path content).1 with e | (_ | img)
  · refine ⟨_, rfl, ?_⟩
    intro c hc
    rcases hd c hc with h1 | h1 <;> simp [h1]
  · refine ⟨_, rfl, ?_⟩
    intro c hc
    rcases hd c hc with h1 | h1 <;> simp [h1]
  · dsimp only
    split
    · refine ⟨_, List.append_assoc _ _ _, ?_⟩
      intro c hc
      rcases List.mem_append.1 hc with h2 | h2
      · rcases hd c h2 with h1 | h1 <;> simp [h1]
      · simp at h2
        rcases h2 with h1 | h1 <;> simp [h1]
    · rename_i buf _
      cases h3 : (env.drive.Upload (Join [defaultThumbnailDir, path]) buf buf.length im.dri).1
      all_goals
        dsimp only
        refine ⟨(decodeByExt env path content).2 ++ [Call.Thumbnail (uint im.opt.ThumbnailMaxWidth) (uint im.opt.ThumbnailMaxHeight),
          Call.jpegEncode 75,
          Call.Upload (Join [defaultThumbnailDir, path]) buf buf.length], by simp, ?_⟩
        intro c hc
        rcases List.mem_append.1 hc with h2 | h2
        · rcases hd c h2 with h1 | h1 <;> simp [h1]
        · simp at h2
          rcases h2 with h1 | h1 | h1 <;> simp [h1]

theorem downloadThumbnail_calls (env : Env σ Img) (im : ImgManager σ) (thumbnailPath : String) :
    (downloadThumbnail env im thumbnailPath).2.calls =
      im.calls ++ [Call.Download thumbnailPath] := by
  simp only [downloadThumbnail, driDownload]
  rcases h : (env.drive.Download thumbnailPath im.dri).1 with e | ⟨tc, tsize⟩ <;> rfl

theorem GetThumbnail_new_calls (env : Env σ Img) (im : ImgManager σ) (path : String) :
    ∃ new, (GetThumbnail env im path).2.calls =
        im.calls ++ Call.IsExist (Join [defaultThumbnailDir, path]) :: new ∧
      ∀ c ∈ new, (∀ p ct sz, c = Call.Upload p ct sz → p = Join [defaultThumbnailDir, path]) ∧
        (∀ p, c ≠ Call.IsExist p) ∧
        (∀ p, c = Call.Download p → p = path ∨ p = Join [defaultThumbnailDir, path]) ∧
        (∀ p, c ≠ Call.Delete p) := by
  simp only [GetThumbnail, driIsExist, driDownload]
  rcases h1 : (env.drive.IsExist (Join [defaultThumbnailDir, path]) im.dri).1 with e | exist
  · exact ⟨[], by simp, by simp⟩
  · cases exist
    · -- absent: download the original, generate, download the thumbnail
      simp only [Bool.not_false, if_true]
      rcases h2 : (env.drive.Download path
          (env.drive.IsExist (Join [defaultThumbnailDir, path]) im.dri).2).1 with e | ⟨content, size⟩
      · exact ⟨[Call.Download path], by simp, by simp⟩
      · dsimp only
        rcases h3 : content.readAll with e | data
        · exact ⟨[Call.Download path], by simp, by simp⟩
        · dsimp only
          obtain ⟨new, hnew, hP⟩ := GenerateThumbnail_new_calls env
            { im with
              dri := (env.drive.Download path
                (env.drive.IsExist (Join [defaultThumbnailDir, path]) im.dri).2).2,
              calls := im.calls ++ [Call.IsExist (Join [defaultThumbnailDir, path])] ++
                [Call.Download path] } path data
          generalize hg : GenerateThumbnail env _ path data = g at hnew ⊢
          obtain ⟨r, im2⟩ := g
          have hrest : ∀ c ∈ Call.Download path :: new,
              (∀ p ct sz, c = Call.Upload p ct sz → p = Join [defaultThumbnailDir, path]) ∧
              (∀ p, c ≠ Call.IsExist p) ∧
              (∀ p, c = Call.Download p → p = path ∨ p = Join [defaultThumbnailDir, path]) ∧
              (∀ p, c ≠ Call.Delete p) := by
            intro c hc
            rcases List.mem_cons.1 hc with hc | hc
            · simp [hc]
            · obtain ⟨a1, a2, a3, a4⟩ := hP c hc
              exact ⟨a1, a2, fun p hp => absurd hp (a3 p), a4⟩
          cases r with
          | ok =>
            dsimp only at hnew ⊢
            refine ⟨Call.Download path :: new ++
              [Call.Download (Join [defaultThumbnailDir, path])], ?_, ?_⟩
            · rw [downloadThumbnail_calls, hnew]
              simp
            · intro c hc
              rcases List.mem_append.1 hc with hc | hc
              · exact hrest c hc
              · simp only [List.mem_singleton] at hc
                simp [hc]
          | error e =>
            dsimp only at hnew ⊢
            exact ⟨Call.Download path :: new, by simp [hnew], hrest⟩
          | panicked =>
            dsimp only at hnew ⊢
            exact ⟨Call.Download path :: new, by simp [hnew], hrest⟩
    · -- present: download the thumbnail
      simp only [Bool.not_true, Bool.false_eq_true, if_false]
      refine ⟨[Call.Download (Join [defaultThumbnailDir, path])], ?_, by simp⟩
      rw [downloadThumbnail_calls]
      simp

theorem Join_thumbnail_of_IsCleanRel (p : String) (hp : IsCleanRel p = true) :
    Join [defaultThumbnailDir, p] = defaultThumbnailDir ++ "/" ++ p :=
  Join_pair_of_IsCleanRel defaultThumbnailDir p (by decide) hp

/-- C6 (amended): `GenerateThumbnail` uploads to, and `GetThumbnail` checks and
downloads from, the one path `filepath.Join(".thumbnail", p)`. For a clean
relative path `p` (real elements separated by single slashes) this is
`.thumbnail/` followed by `p` unchanged, so it lies under the thumbnail root, and
distinct clean relative paths have distinct thumbnail paths. -/
theorem thumbnail_path_shared (env : Env σ Img) (im : ImgManager σ) (p : String)
    (content : Bytes) :
    (∃ new, (GenerateThumbnail env im p content).2.calls = im.calls ++ new ∧
        ∀ c ∈ new, ∀ q ct sz, c = Call.Upload q ct sz → q = Join [defaultThumbnailDir, p]) ∧
      (∃ new, (GetThumbnail env im p).2.calls =
          im.calls ++ Call.IsExist (Join [defaultThumbnailDir, p]) :: new ∧
        ∀ c ∈ new, (∀ q ct sz, c = Call.Upload q ct sz → q = Join [defaultThumbnailDir, p]) ∧
          (∀ q, c ≠ Call.IsExist q) ∧
          (∀ q, c = Call.Download q → q = p ∨ q = Join [defaultThumbnailDir, p])) ∧
      (IsCleanRel p = true → Join [defaultThumbnailDir, p] = ".thumbnail" ++ "/" ++ p) ∧
      (∀ q, IsCleanRel p = true → IsCleanRel q = true →
        Join [defaultThumbnailDir, q] = Join [defaultThumbnailDir, p] → q = p) := by
  refine ⟨?_, ?_, Join_thumbnail_of_IsCleanRel p, ?_⟩
  · obtain ⟨new, h1, h2⟩ := GenerateThumbnail_new_calls env im p content
    exact ⟨new, h1, fun c hc => (h2 c hc).1⟩
  · obtain ⟨new, h1, h2⟩ := GetThumbnail_new_calls env im p
    exact ⟨new, h1, fun c hc => ⟨(h2 c hc).1, (h2 c hc).2.1, (h2 c hc).2.2.1⟩⟩
  · intro q hp hq h
    rw [Join_thumbnail_of_IsCleanRel p hp, Join_thumbnail_of_IsCleanRel q hq] at h
    have hd := congrArg String.data h
    simp only [String.data_append] at hd
    exact String.ext (List.append_cancel_left hd)

/-- The path `UploadImg` gives to `photo.jpg` taken on 2023-05-01 has its
thumbnail at `.thumbnail/2023/05/01/photo.jpg`. -/
theorem thumbnail_path_shared_witness :
    Join [defaultThumbnailDir, "2023/05/01/photo.jpg"] = ".thumbnail/2023/05/01/photo.jpg" :=
  (thumbnail_path_shared (memEnv (Except.error "no exif")) (NewImgManager [] ⟨0, 0, 0, 0⟩)
    "2023/05/01/photo.jpg" []).2.2.1 (by decide)

/-- C6 as stated fails: the distinct paths `a//b.jpg` and `a/b.jpg` have the
same thumbnail path, which is not `.thumbnail/` followed by `a//b.jpg`, and the
thumbnail path of `../x.jpg` is `x.jpg`, outside the thumbnail root. -/
theorem thumbnail_path_not_injective :
    Join [defaultThumbnailDir, "a//b.jpg"] = Join [defaultThumbnailDir, "a/b.jpg"] ∧
      "a//b.jpg" ≠ "a/b.jpg" ∧
      Join [defaultThumbnailDir, "a//b.jpg"] ≠ ".thumbnail" ++ "/" ++ "a//b.jpg" ∧
      Join [defaultThumbnailDir, "../x.jpg"] = "x.jpg" := by
  decide

theorem GenerateThumbnail_codec_calls (env : Env σ Img) (im : ImgManager σ) (path : String)
    (content : Bytes) :
    ∃ new, (GenerateThumbnail env im path content).2.calls = im.calls ++ new ∧
      ∀ c ∈ new, (∀ q, c = Call.jpegEncode q → q = 75) ∧
        (∀ w h, c = Call.Thumbnail w h →
          w = uint im.opt.ThumbnailMaxWidth ∧ h = uint im.opt.ThumbnailMaxHeight) := by
  have hd := decodeByExt_calls env path content
  simp only [GenerateThumbnail, driUpload]
  rcases h : (decodeByExt env path content).1 with e | (_ | img)
  · refine ⟨_, rfl, ?_⟩
    intro c hc
    rcases hd c hc with h1 | h1 <;> simp [h1]
  · refine ⟨_, rfl, ?_⟩
    intro c hc
    rcases hd c hc with h1 | h1 <;> simp [h1]
  · dsimp only
    split
    · refine ⟨_, List.append_assoc _ _ _, ?_⟩
      intro c hc
      rcases List.mem_append.1 hc with h2 | h2
      · rcases hd c h2 with h1 | h1 <;> simp [h1]
      · simp at h2
        rcases h2 with h1 | h1 <;> simp [h1]
    · rename_i buf _
      cases h3 : (env.drive.Upload (Join [defaultThumbnailDir, path]) buf buf.length im.dri).1
      all_goals
        dsimp only
        refine ⟨(decodeByExt env path content).2 ++
          [Call.Thumbnail (uint im.opt.ThumbnailMaxWidth) (uint im.opt.ThumbnailMaxHeight),
          Call.jpegEncode 75,
          Call.Upload (Join [defaultThumbnailDir, path]) buf buf.length], by simp, ?_⟩
        intro c hc
        rcases List.mem_append.1 hc with h2 | h2
        · rcases hd c h2 with h1 | h1 <;> simp [h1]
        · simp at h2
          rcases h2 with h1 | h1 | h1 <;> simp [h1]

theorem NewImgManager_opt (dri0 : σ) (opt : ManagerOption) :
    (NewImgManager dri0 opt).opt =
        ⟨if opt.WorkerNum ≤ 0 then 5 else opt.WorkerNum,
          if opt.ThumbnailMaxWidth ≤ 0 then 500 else opt.ThumbnailMaxWidth,
          if opt.ThumbnailMaxHeight ≤ 0 then 500 else opt.ThumbnailMaxHeight,
          opt.ThumbbailQuality⟩ ∧
      (NewImgManager dri0 opt).workers =
        (if opt.WorkerNum ≤ 0 then 5 else opt.WorkerNum.toNat) := by
  obtain ⟨n, w, h, q⟩ := opt
  by_cases h1 : n ≤ 0 <;> by_cases h2 : w ≤ 0 <;> by_cases h3 : h ≤ 0 <;>
    simp [NewImgManager, h1, h2, h3, defaultWorkerNum, defaultThumbnailMaxWidth,
      defaultThumbnailMaxHeight]

/-- C9 (what the code does): for every supplied `Option` the number of workers
started is the supplied count when positive and 5 otherwise, and the bounding box
passed to the resize step is the supplied width and height when positive and 500
otherwise; but the thumbnail is always encoded at quality 75, whatever thumbnail
quality was supplied: with quality 90 supplied the encode call still has 75. -/
theorem GenerateThumbnail_ignores_ThumbbailQuality (env : Env σ Img) (dri0 : σ)
    (opt : ManagerOption) (path : String) (content : Bytes) :
    (NewImgManager dri0 opt).workers = (if opt.WorkerNum ≤ 0 then 5 else opt.WorkerNum.toNat) ∧
      (NewImgManager dri0 opt).opt.ThumbbailQuality = opt.ThumbbailQuality ∧
      (∀ c ∈ (GenerateThumbnail env (NewImgManager dri0 opt) path content).2.calls,
        (∀ w h, c = Call.Thumbnail w h →
          w = uint (if opt.ThumbnailMaxWidth ≤ 0 then 500 else opt.ThumbnailMaxWidth) ∧
          h = uint (if opt.ThumbnailMaxHeight ≤ 0 then 500 else opt.ThumbnailMaxHeight)) ∧
        (∀ q, c = Call.jpegEncode q → q = 75)) ∧
      (GenerateThumbnail (memEnv (Except.error "no exif")) (NewImgManager [] ⟨0, 0, 0, 90⟩)
          "a.jpg" [1, 2]).2.calls =
        [Call.jpegDecode [1, 2], Call.Thumbnail 500 500, Call.jpegEncode 75,
          Call.Upload ".thumbnail/a.jpg" [1, 2] 2] := by
  obtain ⟨ho, hw⟩ := NewImgManager_opt dri0 opt
  refine ⟨hw, by rw [ho], ?_, by decide⟩
  obtain ⟨new, h1, h2⟩ := GenerateThumbnail_codec_calls env (NewImgManager dri0 opt) path content
  have hc0 : (NewImgManager dri0 opt).calls = [] := rfl
  rw [h1, hc0, List.nil_append]
  intro c hc
  refine ⟨?_, (h2 c hc).1⟩
  intro w h hwh
  have := (h2 c hc).2 w h hwh
  rw [ho] at this
  exact this

end ThumbnailPath

section Range

theorem lookup_fixed (l : Location) (h : l.tx = []) (sec : Int) :
    l.lookup sec = (l.offset0, alpha, omega) := by
  simp [Location.lookup, h, lookupFrom]

theorem addSeconds_zero (t : Time) : t.addSeconds 0 = t := by
  simp [Time.addSeconds]

/-- In a location with a fixed offset, `t.AddDate(0, 0, 1)` presents the next
civil day at the same clock. -/
theorem AddDate_fixed (t : ZonedTime) (h : t.loc.tx = []) :
    t.AddDate = ⟨t.civil.nextDay, t.loc⟩ := by
  simp only [ZonedTime.AddDate, lookup_fixed t.loc h]
  by_cases h0 : t.loc.offset0 = 0
  · simp [h0, addSeconds_zero]
  · simp [h0, addSeconds_zero]

theorem isLeap_eq_spec (year : Int) : isLeap year = specLeapYear year := by
  unfold isLeap specLeapYear
  by_cases h4 : year % 4 = 0 <;> by_cases h100 : year % 100 = 0 <;>
    by_cases h400 : year % 400 = 0 <;> simp [h4, h100, h400] <;> omega

theorem daysIn_eq_spec (month : Nat) (year : Int) :
    daysIn month year = specDaysInMonth month year := by
  by_cases h2 : month = 2
  · subst h2; simp [daysIn, specDaysInMonth, isLeap_eq_spec]
  by_cases h4 : month = 4
  · subst h4; simp [daysIn, specDaysInMonth]
  by_cases h6 : month = 6
  · subst h6; simp [daysIn, specDaysInMonth]
  by_cases h9 : month = 9
  · subst h9; simp [daysIn, specDaysInMonth]
  by_cases h11 : month = 11
  · subst h11; simp [daysIn, specDaysInMonth]
  have hs : specDaysInMonth month year = 31 := by
    unfold specDaysInMonth
    split <;> first | rfl | contradiction
  simp [daysIn, h2, h4, h6, h9, h11, hs]

theorem nextDay_eq_spec (t : Time) : t.nextDay = specNextDay t := by
  unfold Time.nextDay specNextDay
  rw [daysIn_eq_spec]
  simp [Nat.lt_iff_add_one_le]

theorem daysVisited_fixed (n : Nat) :
    ∀ t : ZonedTime, t.loc.tx = [] →
      (daysVisited n t).map (fun d => d.civil) = specDaysFrom n t.civil ∧
      ∀ d ∈ daysVisited n t, d.loc = t.loc := by
  induction n with
  | zero => intro t _; simp [daysVisited, specDaysFrom]
  | succ n ih =>
    intro t h
    have hadd := AddDate_fixed t h
    have hloc : t.AddDate.loc.tx = [] := by rw [hadd]; exact h
    obtain ⟨h1, h2⟩ := ih t.AddDate hloc
    constructor
    · simp only [daysVisited, specDaysFrom, List.map_cons, h1]
      rw [hadd, nextDay_eq_spec]
    · intro d hd
      simp only [daysVisited, List.mem_cons] at hd
      rcases hd with hd | hd
      · rw [hd]
      · rw [h2 d hd, hadd]

theorem specInvokeUntilFalse_append {κ : Type} (f : String → Int → κ → Bool × κ)
    (xs ys : List (String × Int)) :
    ∀ k : κ, specInvokeUntilFalse f (xs ++ ys) k =
      (match specInvokeUntilFalse f xs k with
        | (inv, true, k1) =>
          (inv ++ (specInvokeUntilFalse f ys k1).1, (specInvokeUntilFalse f ys k1).2.1,
            (specInvokeUntilFalse f ys k1).2.2)
        | (inv, false, k1) => (inv, false, k1)) := by
  induction xs with
  | nil => intro k; simp [specInvokeUntilFalse]
  | cons a rest ih =>
    intro k
    simp only [List.cons_append, specInvokeUntilFalse]
    rcases h : f a.1 a.2 k with ⟨b, k1⟩
    cases b
    · simp
    · have hk := ih k1
      rcases h2 : specInvokeUntilFalse f rest k1 with ⟨inv, b2, k2⟩
      rw [h2] at hk
      cases b2 <;> simp [hk, h2]

theorem driRange_rangeVisitor {κ : Type} (f : String → Int → κ → Bool × κ) (dir : String)
    (entries : List FileInfo) :
    ∀ (k : κ) (inv0 : List (String × Int)),
      driRange (rangeVisitor f dir) entries ⟨true, k, inv0⟩ =
        ⟨(specInvokeUntilFalse f
            (entries.map (fun info => (Join [dir, info.Name], info.Size))) k).2.1,
          (specInvokeUntilFalse f
            (entries.map (fun info => (Join [dir, info.Name], info.Size))) k).2.2,
          inv0 ++ (specInvokeUntilFalse f
            (entries.map (fun info => (Join [dir, info.Name], info.Size))) k).1⟩ := by
  induction entries with
  | nil => intro k inv0; simp [driRange, specInvokeUntilFalse]
  | cons info rest ih =>
    intro k inv0
    simp only [driRange, rangeVisitor, List.map_cons, specInvokeUntilFalse]
    rcases h : f (Join [dir, info.Name]) info.Size k with ⟨b, k1⟩
    cases b
    · simp
    · simp only [ih k1]
      simp

theorem rangeLoop_stopped {κ : Type} (env : Env σ Img) (dri : σ) (f : String → Int → κ → Bool × κ)
    (fuel : Nat) (t : ZonedTime) (k : κ) (inv : List (String × Int)) :
    rangeLoop env dri f fuel t ⟨false, k, inv⟩ = RangeRun.returned ⟨false, k, inv⟩ := by
  cases fuel <;> simp [rangeLoop]

theorem rangeLoop_eq {κ : Type} (env : Env σ Img) (dri : σ) (f : String → Int → κ → Bool × κ)
    (n : Nat) :
    ∀ (t : ZonedTime) (k : κ) (inv0 : List (String × Int)),
      rangeLoop env dri f n t ⟨true, k, inv0⟩ =
        (match specInvokeUntilFalse f ((daysVisited n t).flatMap (visitArgs env dri)) k with
          | (inv, true, k1) => RangeRun.running ⟨true, k1, inv0 ++ inv⟩
          | (inv, false, k1) => RangeRun.returned ⟨false, k1, inv0 ++ inv⟩) := by
  induction n with
  | zero => intro t k inv0; simp [rangeLoop, daysVisited, specInvokeUntilFalse]
  | succ n ih =>
    intro t k inv0
    have hday := driRange_rangeVisitor f (Join [t.Format])
      (env.drive.Range (Join [t.Format]) dri) k inv0
    rw [rangeLoop]
    simp only [Bool.not_true, Bool.false_eq_true, if_false, hday, daysVisited,
      List.flatMap_cons, specInvokeUntilFalse_append]
    change rangeLoop env dri f n t.AddDate _ = _
    rcases h : specInvokeUntilFalse f (visitArgs env dri t) k with ⟨inv1, b, k1⟩
    have h' : specInvokeUntilFalse f
        ((env.drive.Range (Join [t.Format]) dri).map
          (fun info => (Join [Join [t.Format], info.Name], info.Size)))
        k = (inv1, b, k1) := h
    rw [h']
    cases b
    · simp [rangeLoop_stopped]
    · simp only [ih t.AddDate k1 (inv0 ++ inv1)]
      rcases h2 : specInvokeUntilFalse f ((daysVisited n t.AddDate).flatMap (visitArgs env dri)) k1 with
        ⟨inv2, b2, k2⟩
      cases b2 <;> simp

theorem invoked_initial_segment {κ : Type} (f : String → Int → κ → Bool × κ)
    (args : List (String × Int)) : ∀ k : κ, (specInvokeUntilFalse f args k).1 <+: args := by
  induction args with
  | nil => intro k; simp [specInvokeUntilFalse]
  | cons a rest ih =>
    intro k
    simp only [specInvokeUntilFalse]
    rcases h : f a.1 a.2 k with ⟨b, k1⟩
    cases b
    · simp
    · simpa using ih k1

theorem visitArgs_eq_specDayArgs (env : Env σ Img) (dri : σ) (t : ZonedTime)
    (hnames : ∀ info ∈ env.drive.Range t.Format dri, IsCleanRel info.Name = true) :
    visitArgs env dri t = specDayArgs env dri t.civil := by
  have hdir : Join [t.Format] = t.Format :=
    Join_single_of_IsCleanRel _ (IsCleanRel_Format t.civil)
  simp only [visitArgs, specDayArgs, hdir]
  apply List.map_congr_left
  intro info hinfo
  rw [Join_pair_of_IsCleanRel t.Format info.Name (IsCleanRel_Format t.civil)
    (hnames info hinfo)]
  rfl

theorem flatMap_visitArgs_fixed (env : Env σ Img) (dri : σ) (n : Nat) (start : ZonedTime)
    (hloc : start.loc.tx = [])
    (hnames : ∀ d ∈ specDaysFrom n start.civil, ∀ info ∈ env.drive.Range d.Format dri,
      IsCleanRel info.Name = true) :
    (daysVisited n start).flatMap (visitArgs env dri) =
      (specDaysFrom n start.civil).flatMap (specDayArgs env dri) := by
  obtain ⟨hdays, _⟩ := daysVisited_fixed n start hloc
  rw [← hdays, List.flatMap_map]
  apply List.flatMap_congr
  intro d hd
  apply visitArgs_eq_specDayArgs
  apply hnames d.civil
  rw [← hdays]
  exact List.mem_map_of_mem _ hd

/-- C8 (amended): over its first `n` days, `RangeByDate` visits the days `start`,
`start.AddDate(0, 0, 1)`, ... and its callback invocations are the concatenation,
day by day, of one invocation per object of that day's directory, cut off right
after the first invocation that returns false (an initial segment of the
concatenation): the run has returned exactly when some invocation returned
false and is still running otherwise, empty days included. When the location of
`start` has a fixed offset (UTC for instance) the days visited are the
consecutive calendar days from `start` on, and when the object names the drive
reports are clean relative names (base names for instance) the arguments of an
invocation are `(YYYY/MM/DD/<object name>, size)`. -/
theorem RangeByDate_invocations {κ : Type} (env : Env σ Img) (im : ImgManager σ) (n : Nat)
    (start : ZonedTime) (f : String → Int → κ → Bool × κ) (cb : κ) :
    RangeByDate env im n start f cb =
        (match specInvokeUntilFalse f
            ((daysVisited n start).flatMap (visitArgs env im.dri)) cb with
          | (inv, true, k) => RangeRun.running ⟨true, k, inv⟩
          | (inv, false, k) => RangeRun.returned ⟨false, k, inv⟩) ∧
      (specInvokeUntilFalse f ((daysVisited n start).flatMap (visitArgs env im.dri)) cb).1 <+:
        (daysVisited n start).flatMap (visitArgs env im.dri) ∧
      (start.loc.tx = [] →
        (daysVisited n start).map (fun d => d.civil) = specDaysFrom n start.civil) ∧
      (∀ d : ZonedTime,
        (∀ info ∈ env.drive.Range d.Format im.dri, IsCleanRel info.Name = true) →
        visitArgs env im.dri d = specDayArgs env im.dri d.civil) ∧
      (start.loc.tx = [] →
        (∀ d ∈ specDaysFrom n start.civil, ∀ info ∈ env.drive.Range d.Format im.dri,
          IsCleanRel info.Name = true) →
        RangeByDate env im n start f cb =
          (match specInvokeUntilFalse f
              ((specDaysFrom n start.civil).flatMap (specDayArgs env im.dri)) cb with
            | (inv, true, k) => RangeRun.running ⟨true, k, inv⟩
            | (inv, false, k) => RangeRun.returned ⟨false, k, inv⟩)) := by
  have h := rangeLoop_eq env im.dri f n start cb []
  have h1 : RangeByDate env im n start f cb =
      (match specInvokeUntilFalse f
          ((daysVisited n start).flatMap (visitArgs env im.dri)) cb with
        | (inv, true, k) => RangeRun.running ⟨true, k, inv⟩
        | (inv, false, k) => RangeRun.returned ⟨false, k, inv⟩) := by
    simpa [RangeByDate] using h
  refine ⟨h1, invoked_initial_segment f _ cb, fun hloc => (daysVisited_fixed n start hloc).1,
    fun d hd => visitArgs_eq_specDayArgs env im.dri d hd, ?_⟩
  intro hloc hnames
  rw [← flatMap_visitArgs_fixed env im.dri n start hloc hnames]
  exact h1

/-- Two objects on 2023-05-01, none on 2023-05-02, one on 2023-05-03, a start
in UTC and a callback that stops at its third invocation: the empty day is
skipped and the run returns after the third object. -/
theorem RangeByDate_invocations_witness :
    RangeByDate (memEnv (Except.error "no exif"))
        (NewImgManager
          [("2023/05/01/a.jpg", [1, 2]), ("2023/05/01/b.jpg", [3]), ("2023/05/03/c.jpg", []),
            ("2023/05/04/d.jpg", [4])]
          ⟨0, 0, 0, 0⟩)
        5 ⟨⟨2023, 4, 30, 0, 0, 0, 0⟩, UTC⟩ (fun _ _ (k : Nat) => (decide (k + 1 < 3), k + 1)) 0 =
      RangeRun.returned ⟨false, 3,
        [("2023/05/01/a.jpg", 2), ("2023/05/01/b.jpg", 1), ("2023/05/03/c.jpg", 0)]⟩ :=
  ((RangeByDate_invocations (memEnv (Except.error "no exif"))
    (NewImgManager
      [("2023/05/01/a.jpg", [1, 2]), ("2023/05/01/b.jpg", [3]), ("2023/05/03/c.jpg", []),
        ("2023/05/04/d.jpg", [4])]
      ⟨0, 0, 0, 0⟩)
    5 ⟨⟨2023, 4, 30, 0, 0, 0, 0⟩, UTC⟩ (fun _ _ (k : Nat) => (decide (k + 1 < 3), k + 1))
    0).2.2.2.2 rfl (by decide)).trans (by decide)

/-- C8 as stated fails. From 2018-11-03 00:00 in America/Sao_Paulo, where local
midnight of 2018-11-04 does not exist, `AddDate(0, 0, 1)` gives 2018-11-03 23:00:
`RangeByDate` ranges the directory `2018/11/03` twice and invokes the callback
twice for its one object, where the consecutive calendar days 2018-11-03 and
2018-11-04 call for one invocation for `a.jpg` and one for `b.jpg`. And for an
object the drive reports under the name `sub//x.jpg` the callback gets the path
`2023/05/01/sub/x.jpg`, not the directory followed by that name. -/
theorem RangeByDate_repeats_day_in_zone_gap :
    (ZonedTime.AddDate ⟨⟨2018, 11, 3, 0, 0, 0, 0⟩, saoPaulo2018⟩).civil =
        ⟨2018, 11, 3, 23, 0, 0, 0⟩ ∧
      RangeByDate (memEnv (Except.error "no exif"))
          (NewImgManager [("2018/11/03/a.jpg", [1, 2]), ("2018/11/04/b.jpg", [3])] ⟨0, 0, 0, 0⟩)
          2 ⟨⟨2018, 11, 3, 0, 0, 0, 0⟩, saoPaulo2018⟩
          (fun _ _ (k : Nat) => (decide (k + 1 < 2), k + 1)) 0 =
        RangeRun.returned ⟨false, 2, [("2018/11/03/a.jpg", 2), ("2018/11/03/a.jpg", 2)]⟩ ∧
      specInvokeUntilFalse (fun _ _ (k : Nat) => (decide (k + 1 < 2), k + 1))
          ((specDaysFrom 2 ⟨2018, 11, 3, 0, 0, 0, 0⟩).flatMap
            (specDayArgs (memEnv (Except.error "no exif"))
              [("2018/11/03/a.jpg", [1, 2]), ("2018/11/04/b.jpg", [3])])) 0 =
        ([("2018/11/03/a.jpg", 2), ("2018/11/04/b.jpg", 1)], false, 2) ∧
      (memEnv (Except.error "no exif")).drive.Range "2023/05/01"
          [("2023/05/01/sub//x.jpg", [1, 2])] = [⟨"sub//x.jpg", 2⟩] ∧
      RangeByDate (memEnv (Except.error "no exif"))
          (NewImgManager [("2023/05/01/sub//x.jpg", [1, 2])] ⟨0, 0, 0, 0⟩)
          1 ⟨⟨2023, 5, 1, 0, 0, 0, 0⟩, UTC⟩ (fun _ _ (k : Nat) => (false, k + 1)) 0 =
        RangeRun.returned ⟨false, 1, [("2023/05/01/sub/x.jpg", 2)]⟩ ∧
      "2023/05/01/sub/x.jpg" ≠ "2023/05/01" ++ "/" ++ "sub//x.jpg" := by
  decide

end Range

end imgmanager

end ImgSyncer
